import Mathlib

/-!
Verification of the indicator and market-breadth engine of the
`mcp-app-tase-market` repository.

The TypeScript source operates on nullable IEEE doubles; here a numeric value
is modelled as `ℚ` (the code performs only field operations and comparisons on
finite inputs, and the guards proved below show the divisions are never taken
at zero) and a nullable value as `Option ℚ`.  A null-aware daily series is a
`List (Option ℚ)`, indexed as in the source; reading past the end yields
`none`, matching the null-guards of the source.  `Math.sqrt`, whose exact
value is irrational, enters only through `stddev` and is modelled as an
uninterpreted function parameter `ℚ → ℚ`; every property proved about the
refresh pipeline holds for all of its values.

Database rows (`TaseSecuritiesEndOfDayTradingData`) are modelled by the
structure `Bar`; the Prisma store is a `List Bar`, a `findMany` with an
`orderBy` clause is a filter followed by a date-insertion sort, and an
`update` by the unique `(symbol, tradeDate)` key is a row-wise map.
-/

/-- `values[i]` of the source: element `i` of a null-aware series, `none`
out of range. -/
def gv (l : List (Option ℚ)) (i : ℕ) : Option ℚ := l.getD i none

/-- Length of the run of consecutive non-null elements ending just before
index `i` (the amount of contiguous valid history available at `i`). -/
def validRun (values : List (Option ℚ)) : ℕ → ℕ
  | 0 => 0
  | i + 1 =>
    match gv values i with
    | none => 0
    | some _ => validRun values i + 1

/-- Sum of the `c` elements at indices `i - c, …, i - 1` (null read as `0`;
the lemmas below only use it on windows proved non-null). -/
def wsum (values : List (Option ℚ)) (i c : ℕ) : ℚ :=
  ((List.range' (i - c) c).map fun j => (gv values j).getD 0).sum

/-- The body of the source's `sma` loop: running `sum`/`count` over index `i`,
resetting on a null, dropping `values[i - period]` once `count` exceeds
`period`, and emitting `sum / period` exactly when `count = period`.  The
source's non-null assertion `values[i - period]!` is modelled as `.getD 0`;
the invariant proof `smaGo_eq` shows that element is non-null whenever the
branch is taken, so the default is never read. -/
def smaGo (values : List (Option ℚ)) (period : ℕ) (i : ℕ) (sum : ℚ) (count : ℕ) :
    List (Option ℚ) :=
  if _h : i < values.length then
    match gv values i with
    | none => none :: smaGo values period (i + 1) 0 0
    | some v =>
      let sum1 := sum + v
      let count1 := count + 1
      let sum2 := if period < count1 then sum1 - (gv values (i - period)).getD 0 else sum1
      let count2 := if period < count1 then period else count1
      (if count2 = period then some (sum2 / (period : ℚ)) else none) ::
        smaGo values period (i + 1) sum2 count2
  else []
termination_by values.length - i
decreasing_by all_goals omega

/-- `sma(values, period)` of `subscription-widget.tsx`. -/
def sma (values : List (Option ℚ)) (period : ℕ) : List (Option ℚ) :=
  smaGo values period 0 0 0

/-- Closed form the rolling loop computes at one index: a value exactly when
`period` consecutive valid elements end at `i`, and then the window mean. -/
def smaModel (values : List (Option ℚ)) (period i : ℕ) : Option ℚ :=
  if period ≤ validRun values (i + 1) then
    some (wsum values (i + 1) period / (period : ℚ))
  else none

theorem smaGo_nil (values : List (Option ℚ)) (period i : ℕ) (sum : ℚ) (count : ℕ)
    (h : ¬ i < values.length) : smaGo values period i sum count = [] := by
  rw [smaGo, dif_neg h]

theorem smaGo_none (values : List (Option ℚ)) (period i : ℕ) (sum : ℚ) (count : ℕ)
    (h : i < values.length) (hv : gv values i = none) :
    smaGo values period i sum count = none :: smaGo values period (i + 1) 0 0 := by
  rw [smaGo, dif_pos h, hv]

theorem smaGo_some (values : List (Option ℚ)) (period i : ℕ) (sum : ℚ) (count : ℕ)
    (v : ℚ) (h : i < values.length) (hv : gv values i = some v) :
    smaGo values period i sum count =
      (if (if period < count + 1 then period else count + 1) = period then
        some ((if period < count + 1 then sum + v - (gv values (i - period)).getD 0
               else sum + v) / (period : ℚ))
       else none) ::
      smaGo values period (i + 1)
        (if period < count + 1 then sum + v - (gv values (i - period)).getD 0 else sum + v)
        (if period < count + 1 then period else count + 1) := by
  rw [smaGo, dif_pos h, hv]

theorem validRun_le (values : List (Option ℚ)) : ∀ i, validRun values i ≤ i := by
  intro i
  induction i with
  | zero => simp [validRun]
  | succ n ih =>
    cases h : gv values n with
    | none => simp [validRun, h]
    | some v => simp only [validRun, h]; omega

theorem validRun_isSome (values : List (Option ℚ)) :
    ∀ i j, i - validRun values i ≤ j → j < i → (gv values j).isSome := by
  intro i
  induction i with
  | zero => omega
  | succ n ih =>
    intro j hlo hhi
    cases h : gv values n with
    | none => simp only [validRun, h] at hlo; omega
    | some v =>
      simp only [validRun, h] at hlo
      rcases Nat.lt_succ_iff_lt_or_eq.mp hhi with h1 | h1
      · exact ih j (by have := validRun_le values n; omega) h1
      · subst h1; simp [h]

theorem le_validRun (values : List (Option ℚ)) :
    ∀ c i, c ≤ i → (∀ j, i - c ≤ j → j < i → (gv values j).isSome) →
      c ≤ validRun values i := by
  intro c
  induction c with
  | zero => omega
  | succ m ih =>
    intro i hci hall
    obtain ⟨n, rfl⟩ : ∃ n, i = n + 1 := ⟨i - 1, by omega⟩
    have hn : (gv values n).isSome := hall n (by omega) (by omega)
    obtain ⟨v, hv⟩ := Option.isSome_iff_exists.mp hn
    have : m ≤ validRun values n :=
      ih n (by omega) fun j h1 h2 => hall j (by omega) (by omega)
    simp only [validRun, hv]
    omega

theorem wsum_zero (values : List (Option ℚ)) (i : ℕ) : wsum values i 0 = 0 := by
  simp [wsum]

theorem wsum_succ (values : List (Option ℚ)) (i c : ℕ) (hc : c ≤ i) :
    wsum values (i + 1) (c + 1) = wsum values i c + (gv values i).getD 0 := by
  unfold wsum
  have h1 : i + 1 - (c + 1) = i - c := by omega
  have h2 : List.range' (i - c) (c + 1) = List.range' (i - c) c ++ [i - c + c] := by
    simpa using @List.range'_concat 1 (i - c) c
  rw [h1, h2]
  have h3 : i - c + c = i := by omega
  simp [h3]

theorem wsum_shift (values : List (Option ℚ)) (i period : ℕ) (hp : period ≤ i) :
    wsum values (i + 1) period =
      wsum values i period + (gv values i).getD 0 - (gv values (i - period)).getD 0 := by
  have ha : wsum values (i + 1) (period + 1) =
      wsum values i period + (gv values i).getD 0 := wsum_succ values i period hp
  have hb : wsum values (i + 1) (period + 1) =
      (gv values (i - period)).getD 0 + wsum values (i + 1) period := by
    unfold wsum
    have h1 : i + 1 - (period + 1) = i - period := by omega
    have h2 : i + 1 - period = i - period + 1 := by omega
    rw [h1, h2, List.range'_succ]
    simp
  rw [hb] at ha
  linarith

theorem smaGo_eq (values : List (Option ℚ)) (period : ℕ) (hp : 0 < period) :
    ∀ i sum count, count = min (validRun values i) period → sum = wsum values i count →
      smaGo values period i sum count =
        (List.range' i (values.length - i)).map (smaModel values period) := by
  intro i sum count hcount hsum
  by_cases h : i < values.length
  · have hlen : values.length - i = (values.length - (i + 1)) + 1 := by omega
    rw [hlen, List.range'_succ]
    have hrunle : validRun values i ≤ i := validRun_le values i
    cases hgv : gv values i with
    | none =>
      have hrun1 : validRun values (i + 1) = 0 := by simp [validRun, hgv]
      have hmodel : smaModel values period i = none := by
        simp only [smaModel, hrun1]
        rw [if_neg (by omega)]
      rw [smaGo_none values period i sum count h hgv, List.map_cons, hmodel]
      congr 1
      exact smaGo_eq values period hp (i + 1) 0 0 (by simp [hrun1]) (by simp [wsum_zero])
    | some v =>
      have hrun1 : validRun values (i + 1) = validRun values i + 1 := by
        simp [validRun, hgv]
      have hvget : (gv values i).getD 0 = v := by simp [hgv]
      rw [smaGo_some values period i sum count v h hgv, List.map_cons]
      by_cases hfull : period < count + 1
      · -- the window is already full: count = period, slide it
        have hcp : count = period := by omega
        have hvr : period ≤ validRun values i := by omega
        have hpi : period ≤ i := le_trans hvr hrunle
        simp only [if_pos hfull]
        have hsum2 : sum + v - (gv values (i - period)).getD 0 =
            wsum values (i + 1) period := by
          rw [wsum_shift values i period hpi, hsum, hcp, ← hvget]
        have hmodel : smaModel values period i =
            some (wsum values (i + 1) period / (period : ℚ)) := by
          simp only [smaModel, hrun1]
          rw [if_pos (by omega)]
        rw [if_true, hsum2, hmodel]
        congr 1
        exact smaGo_eq values period hp (i + 1) (wsum values (i + 1) period) period
          (by omega) rfl
      · -- still accumulating: count = validRun < period
        have hcv : count = validRun values i := by omega
        have hci : count ≤ i := by omega
        simp only [if_neg hfull]
        have hsum2 : sum + v = wsum values (i + 1) (count + 1) := by
          rw [wsum_succ values i count hci, hsum, ← hvget]
        by_cases he : count + 1 = period
        · rw [if_pos he]
          have hmodel : smaModel values period i =
              some (wsum values (i + 1) period / (period : ℚ)) := by
            simp only [smaModel, hrun1]
            rw [if_pos (by omega)]
          rw [hsum2, he, hmodel]
          congr 1
          exact smaGo_eq values period hp (i + 1) (wsum values (i + 1) period) period
            (by omega) rfl
        · rw [if_neg he]
          have hmodel : smaModel values period i = none := by
            simp only [smaModel, hrun1]
            rw [if_neg (by omega)]
          rw [hmodel]
          congr 1
          exact smaGo_eq values period hp (i + 1) (sum + v) (count + 1) (by omega) hsum2
  · rw [smaGo_nil values period i sum count h]
    have : values.length - i = 0 := by omega
    simp [this]
termination_by i => values.length - i
decreasing_by all_goals omega

theorem sma_eq_model (values : List (Option ℚ)) (period : ℕ) (hp : 0 < period) :
    sma values period = (List.range values.length).map (smaModel values period) := by
  have h := smaGo_eq values period hp 0 0 0 (by simp [validRun]) (by simp [wsum_zero])
  rw [sma, h, List.range_eq_range']
  simp

theorem sma_getD (values : List (Option ℚ)) (period i : ℕ) (hp : 0 < period)
    (hi : i < values.length) :
    (sma values period).getD i none = smaModel values period i := by
  rw [sma_eq_model values period hp]
  rw [List.getD_eq_getElem?_getD, List.getElem?_map]
  rw [List.getElem?_range hi]
  rfl

/-- **C4.** Rolling mean correctness and gap reset for `sma`: whenever the
`period` elements ending at index `i` are all non-null, the output at `i` is
their arithmetic mean `wsum values (i+1) period / period`; whenever that
window contains a null the output at `i` is null. -/
theorem sma_window (values : List (Option ℚ)) (period i : ℕ) (hp : 0 < period)
    (hi : i < values.length) :
    ((period ≤ i + 1 ∧ ∀ j, i + 1 - period ≤ j → j ≤ i → (gv values j).isSome) →
      (sma values period).getD i none = some (wsum values (i + 1) period / (period : ℚ))) ∧
    ((∃ j, i + 1 - period ≤ j ∧ j ≤ i ∧ gv values j = none) →
      (sma values period).getD i none = none) := by
  constructor
  · rintro ⟨hpe, hall⟩
    rw [sma_getD values period i hp hi]
    unfold smaModel
    rw [if_pos]
    exact le_validRun values period (i + 1) hpe fun j h1 h2 => hall j (by omega) (by omega)
  · rintro ⟨j, h1, h2, hj⟩
    rw [sma_getD values period i hp hi]
    unfold smaModel
    rw [if_neg]
    intro hge
    have hrle : validRun values (i + 1) ≤ i + 1 := validRun_le values (i + 1)
    have hs := validRun_isSome values (i + 1) j (by omega) (by omega)
    rw [hj] at hs
    simp at hs

/-- Witness for `sma_window`: a full window yields the mean, a broken window
yields null, at concrete inputs. -/
theorem sma_window_witness :
    (sma [some 1, some 2, some 4] 2).getD 2 none = some 3 ∧
    (sma [some 1, none, some 4] 2).getD 2 none = none := by
  constructor
  · have h := (sma_window [some 1, some 2, some 4] 2 2 (by norm_num) (by norm_num)).1
      ⟨by norm_num, fun j h1 h2 => by interval_cases j <;> decide⟩
    rw [h]
    unfold wsum
    rw [show (2 : ℕ) + 1 - 2 = 1 from rfl, show List.range' 1 2 = [1, 2] from rfl]
    simp only [List.map_cons, List.map_nil, List.sum_cons, List.sum_nil]
    rw [show gv [some 1, some 2, some 4] 1 = some 2 from rfl,
        show gv [some 1, some 2, some 4] 2 = some 4 from rfl]
    norm_num
  · exact (sma_window [some 1, none, some 4] 2 2 (by norm_num) (by norm_num)).2
      ⟨1, by norm_num, by norm_num, rfl⟩

/-- The seed loop of the source's `rsi` at `i = period`: sums the gains and
losses of the first `period` day-over-day differences, aborting to `(0, 0)`
when any of those closes is null. -/
def rsiSeedGo (values : List (Option ℚ)) (period k : ℕ) (g l : ℚ) : ℚ × ℚ :=
  if _h : k ≤ period then
    match gv values (k - 1), gv values k with
    | some a, some b =>
      rsiSeedGo values period (k + 1) (g + if 0 < b - a then b - a else 0)
        (l + if b - a < 0 then -(b - a) else 0)
    | _, _ => (0, 0)
  else (g, l)
termination_by period + 1 - k
decreasing_by all_goals omega

/-- One iteration of the source's `rsi` loop at index `i ≥ 1`: the new
`(avgGain, avgLoss)` state (`none` for a broken chain) and `out[i]`. -/
def rsiStep (values : List (Option ℚ)) (period i : ℕ) (st : Option (ℚ × ℚ)) :
    Option (ℚ × ℚ) × Option ℚ :=
  match gv values (i - 1), gv values i with
  | some prev, some cur =>
    if i < period then (st, none)
    else
      let gain := if 0 < cur - prev then cur - prev else 0
      let loss := if cur - prev < 0 then -(cur - prev) else 0
      let st2 :=
        if i = period then
          some ((rsiSeedGo values period 1 0 0).1 / (period : ℚ),
                (rsiSeedGo values period 1 0 0).2 / (period : ℚ))
        else
          match st with
          | some p => some ((p.1 * ((period : ℚ) - 1) + gain) / (period : ℚ),
                            (p.2 * ((period : ℚ) - 1) + loss) / (period : ℚ))
          | none => none
      match st2 with
      | none => (none, none)
      | some p => (st2, some (if p.2 = 0 then 100 else 100 - 100 / (1 + p.1 / p.2)))
  | _, _ => (none, none)

/-- The source's `rsi` loop from index `i` on, with state `st`. -/
def rsiGo (values : List (Option ℚ)) (period i : ℕ) (st : Option (ℚ × ℚ)) :
    List (Option ℚ) :=
  if _h : i < values.length then
    (rsiStep values period i st).2 ::
      rsiGo values period (i + 1) (rsiStep values period i st).1
  else []
termination_by values.length - i
decreasing_by all_goals omega

/-- `rsi(values, period)` of `subscription-widget.tsx` (`out[0]` is never
assigned, so it is null). -/
def rsi (values : List (Option ℚ)) (period : ℕ) : List (Option ℚ) :=
  if values.length = 0 then [] else none :: rsiGo values period 1 none

theorem gv_lt_length (values : List (Option ℚ)) (i : ℕ) (v : ℚ)
    (h : gv values i = some v) : i < values.length := by
  by_contra hge
  rw [gv, List.getD_eq_default] at h
  · cases h
  · omega

theorem getD_replicate_none :
    ∀ n m : ℕ, (List.replicate n (none : Option ℚ)).getD m none = none := by
  intro n
  induction n with
  | zero => intro m; simp
  | succ k ih =>
    intro m
    cases m with
    | zero => simp [List.replicate]
    | succ m2 => simp only [List.replicate, List.getD_cons_succ]; exact ih m2

/-- Once the chain is broken (`avgGain = avgLoss = null`) past the seeding
index, one step of the loop emits null and keeps the broken state: the code
has no path that re-seeds after `i = period`. -/
theorem rsiStep_none (values : List (Option ℚ)) (period i : ℕ) (hne : i ≠ period) :
    rsiStep values period i none = (none, none) := by
  unfold rsiStep
  cases gv values (i - 1) with
  | none => rfl
  | some prev =>
    cases gv values i with
    | none => rfl
    | some cur =>
      by_cases hlt : i < period
      · dsimp only
        rw [if_pos hlt]
      · dsimp only
        rw [if_neg hlt]
        simp only [if_neg hne]

theorem rsiGo_broken (values : List (Option ℚ)) (period : ℕ) :
    ∀ i, period < i → rsiGo values period i none =
      List.replicate (values.length - i) (none : Option ℚ) := by
  intro i hpi
  by_cases h : i < values.length
  · rw [rsiGo, dif_pos h, rsiStep_none values period i (by omega)]
    have hlen : values.length - i = (values.length - (i + 1)) + 1 := by omega
    rw [hlen, List.replicate_succ]
    congr 1
    exact rsiGo_broken values period (i + 1) (by omega)
  · rw [rsiGo, dif_neg h]
    have : values.length - i = 0 := by omega
    rw [this, List.replicate_zero]
termination_by i => values.length - i
decreasing_by all_goals omega

theorem rsiGo_after_gap (values : List (Option ℚ)) (period g : ℕ)
    (hg : gv values g = none) (hpg : period < g) :
    ∀ i st j, 1 ≤ i → i ≤ g → g ≤ j →
      (rsiGo values period i st).getD (j - i) none = none := by
  intro i st j h1 hig hgj
  by_cases h : i < values.length
  · rw [rsiGo, dif_pos h]
    rcases Nat.lt_or_ge i g with hlt | hge
    · have hji : j - i = (j - (i + 1)) + 1 := by omega
      rw [hji, List.getD_cons_succ]
      exact rsiGo_after_gap values period g hg hpg (i + 1)
        (rsiStep values period i st).1 j (by omega) (by omega) hgj
    · have hieq : i = g := by omega
      subst hieq
      have hstep : rsiStep values period i st = (none, none) := by
        unfold rsiStep
        rw [hg]
        cases gv values (i - 1) <;> rfl
      rw [hstep]
      rcases Nat.eq_or_lt_of_le hgj with hje | hjl
      · rw [← hje]
        simp
      · have hji : j - i = (j - (i + 1)) + 1 := by omega
        rw [hji, List.getD_cons_succ, rsiGo_broken values period (i + 1) (by omega)]
        exact getD_replicate_none _ _
  · rw [rsiGo, dif_neg h]
    simp
termination_by i => g - i
decreasing_by all_goals omega

/-- **C1.** After a null close at an index `g > period`, the source's `rsi`
emits null at *every* later index, no matter how many consecutive valid
closes follow: `avgGain`/`avgLoss` are seeded only at `i = period`, so the
chain is never re-seeded after a gap, contradicting the claimed (and
specified) re-seeding behaviour. -/
theorem rsi_gap_no_reseed (values : List (Option ℚ)) (period g j : ℕ)
    (hg : gv values g = none) (hpg : period < g) (hgj : g ≤ j) :
    (rsi values period).getD j none = none := by
  unfold rsi
  by_cases hlen : values.length = 0
  · rw [if_pos hlen]
    simp
  · rw [if_neg hlen]
    have hj1 : j = (j - 1) + 1 := by omega
    rw [hj1, List.getD_cons_succ]
    have := rsiGo_after_gap values period g hg hpg 1 none j (le_refl 1) (by omega) hgj
    simpa using this

/-- Witness for `rsi_gap_no_reseed`: closes valid at indices 0–14, null at
index 15, valid again at 16–35 (twenty consecutive valid closes); the output
at index 30 — deep inside the claimed re-seeded region — is still null. -/
theorem rsi_gap_no_reseed_witness :
    (rsi [some 100, some 101, some 100, some 102, some 101, some 103, some 102,
          some 104, some 103, some 105, some 104, some 106, some 105, some 107,
          some 106, none, some 108, some 107, some 109, some 108, some 110,
          some 109, some 111, some 110, some 112, some 111, some 113, some 112,
          some 114, some 113, some 115, some 114, some 116, some 115, some 117,
          some 116] 14).getD 30 none = none := by
  exact rsi_gap_no_reseed _ 14 15 30 rfl (by norm_num) (by norm_num)

/-- The seed loop aborts to `(0, 0)` as soon as a null participates in one of
its `period` difference pairs. -/
theorem rsiSeedGo_break (values : List (Option ℚ)) (period m : ℕ)
    (hm1 : 1 ≤ m) (hmp : m ≤ period)
    (hnull : gv values (m - 1) = none ∨ gv values m = none) :
    ∀ k g l, k ≤ m → rsiSeedGo values period k g l = (0, 0) := by
  intro k g l hkm
  rw [rsiSeedGo, dif_pos (by omega)]
  cases h1 : gv values (k - 1) with
  | none => rfl
  | some a =>
    cases h2 : gv values k with
    | none => rfl
    | some b =>
      have hkm2 : k < m := by
        rcases Nat.eq_or_lt_of_le hkm with he | hl
        · exfalso
          subst he
          rcases hnull with hn | hn
          · rw [h1] at hn; cases hn
          · rw [h2] at hn; cases hn
        · exact hl
      exact rsiSeedGo_break values period m hm1 hmp hnull (k + 1) _ _ (by omega)
termination_by k => m - k
decreasing_by all_goals omega

/-- At `i = period` with a valid difference pair but a null earlier in the
seed window, the loop seeds `avgGain = avgLoss = 0` and, since
`avgLoss = 0`, emits `100`. -/
theorem rsiStep_seed_break (values : List (Option ℚ)) (period t : ℕ) (p c : ℚ)
    (hp : 0 < period) (ht : t + 1 < period) (hnull : gv values t = none)
    (hprev : gv values (period - 1) = some p) (hcur : gv values period = some c) :
    ∀ st, rsiStep values period period st = (some (0, 0), some 100) := by
  intro st
  unfold rsiStep
  rw [hprev, hcur]
  dsimp only
  rw [if_neg (by omega), if_pos rfl]
  rw [rsiSeedGo_break values period (t + 1) (by omega) (by omega)
    (by simp only [Nat.add_sub_cancel]; exact Or.inl hnull) 1 0 0 (by omega)]
  norm_num

theorem rsiGo_to_seed (values : List (Option ℚ)) (period t : ℕ) (p c : ℚ)
    (hp : 0 < period) (ht : t + 1 < period) (hnull : gv values t = none)
    (hprev : gv values (period - 1) = some p) (hcur : gv values period = some c) :
    ∀ i st, 1 ≤ i → i ≤ period →
      (rsiGo values period i st).getD (period - i) none = some 100 := by
  intro i st h1 hip
  have hplen : period < values.length := gv_lt_length values period c hcur
  have hilen : i < values.length := by omega
  rw [rsiGo, dif_pos hilen]
  rcases Nat.eq_or_lt_of_le hip with he | hl
  · subst he
    rw [Nat.sub_self]
    rw [rsiStep_seed_break values i t p c hp ht hnull hprev hcur st]
    rfl
  · have hps : period - i = (period - (i + 1)) + 1 := by omega
    rw [hps, List.getD_cons_succ]
    exact rsiGo_to_seed values period t p c hp ht hnull hprev hcur (i + 1) _
      (by omega) (by omega)
termination_by i => period - i
decreasing_by all_goals omega

/-- **C2.** When a null sits among the first closes (at index `t` with
`t + 1 < period`) but the pair `(period - 1, period)` is valid, the seed loop
breaks with `g = l = 0`, the code seeds `avgGain = avgLoss = 0`, and — via
its `avgLoss == 0` rule — emits `rsi = 100` at index `period` instead of the
null the specification requires for insufficient contiguous history. -/
theorem rsi_degenerate_seed (values : List (Option ℚ)) (period t : ℕ) (p c : ℚ)
    (hp : 0 < period) (ht : t + 1 < period) (hnull : gv values t = none)
    (hprev : gv values (period - 1) = some p) (hcur : gv values period = some c) :
    (rsi values period).getD period none = some 100 := by
  have hplen : period < values.length := gv_lt_length values period c hcur
  have h := rsiGo_to_seed values period t p c hp ht hnull hprev hcur 1 none
    (le_refl 1) (by omega)
  obtain ⟨q, hq⟩ : ∃ q, period = q + 1 := ⟨period - 1, by omega⟩
  subst hq
  unfold rsi
  rw [if_neg (by omega), List.getD_cons_succ]
  simpa using h

/-- Witness for `rsi_degenerate_seed`: fifteen closes with a single null at
index 3; the code outputs `100` at index 14, not null. -/
theorem rsi_degenerate_seed_witness :
    (rsi [some 1, some 2, some 3, none, some 5, some 6, some 7, some 8, some 9,
          some 10, some 11, some 12, some 13, some 14, some 15] 14).getD 14 none =
      some 100 := by
  exact rsi_degenerate_seed _ 14 3 14 15 (by norm_num) (by norm_num) rfl rfl rfl

theorem range_map_getD (n i : ℕ) (f : ℕ → Option ℚ) (h : i < n) :
    ((List.range n).map f).getD i none = f i := by
  rw [List.getD_eq_getElem?_getD, List.getElem?_map, List.getElem?_range h]
  rfl

/-- Typical price `(high + low + close) / 3`, null when any component is. -/
def typicalPrice (high low close : List (Option ℚ)) : List (Option ℚ) :=
  (List.range close.length).map fun i =>
    match gv high i, gv low i, gv close i with
    | some h, some l, some c => some ((h + l + c) / 3)
    | _, _, _ => none

/-- Raw money flow `tp * volume`, null when either is. -/
def rawMoneyFlow (tp volume : List (Option ℚ)) : List (Option ℚ) :=
  (List.range tp.length).map fun i =>
    match gv tp i, gv volume i with
    | some t, some v => some (t * v)
    | _, _ => none

/-- The inner window loop of the source's `mfi`: classifies day `j` against
day `j - 1`, accumulating positive and negative raw flow, and aborts to
`(0, 0)` on any null in the window. -/
def mfiFlowGo (tp rmf : List (Option ℚ)) (hi j : ℕ) (pos neg : ℚ) : ℚ × ℚ :=
  if _h : j ≤ hi then
    match gv tp j, gv tp (j - 1), gv rmf j with
    | some t, some tPrev, some f =>
      if tPrev < t then mfiFlowGo tp rmf hi (j + 1) (pos + f) neg
      else if t < tPrev then mfiFlowGo tp rmf hi (j + 1) pos (neg + f)
      else mfiFlowGo tp rmf hi (j + 1) pos neg
    | _, _, _ => (0, 0)
  else (pos, neg)
termination_by hi + 1 - j
decreasing_by all_goals omega

/-- `mfi(high, low, close, volume, period)` of `subscription-widget.tsx`. -/
def mfi (high low close volume : List (Option ℚ)) (period : ℕ) : List (Option ℚ) :=
  (List.range close.length).map fun i =>
    if i = 0 ∨ i < period then none
    else
      match mfiFlowGo (typicalPrice high low close)
          (rawMoneyFlow (typicalPrice high low close) volume) i (i + 1 - period) 0 0 with
      | (pos, neg) =>
        if pos = 0 ∧ neg = 0 then none
        else if neg = 0 then some 100
        else some (100 - 100 / (1 + pos / neg))

/-- Positive money-flow sum over the window `[lo, hi]`, written directly as a
sum of the days classified as up-days. -/
def posFlowSum (tp rmf : List (Option ℚ)) (lo hi : ℕ) : ℚ :=
  ((List.range' lo (hi + 1 - lo)).map fun j =>
    if (gv tp (j - 1)).getD 0 < (gv tp j).getD 0 then (gv rmf j).getD 0 else 0).sum

/-- Negative money-flow sum over the window `[lo, hi]`. -/
def negFlowSum (tp rmf : List (Option ℚ)) (lo hi : ℕ) : ℚ :=
  ((List.range' lo (hi + 1 - lo)).map fun j =>
    if (gv tp j).getD 0 < (gv tp (j - 1)).getD 0 then (gv rmf j).getD 0 else 0).sum

theorem mfiFlowGo_eq (tp rmf : List (Option ℚ)) (hi : ℕ) :
    ∀ j pos neg,
      (∀ m, j ≤ m → m ≤ hi →
        (gv tp m).isSome ∧ (gv tp (m - 1)).isSome ∧ (gv rmf m).isSome) →
      mfiFlowGo tp rmf hi j pos neg =
        (pos + posFlowSum tp rmf j hi, neg + negFlowSum tp rmf j hi) := by
  intro j pos neg hvalid
  by_cases hj : j ≤ hi
  · obtain ⟨ht, htp, hf⟩ := hvalid j (le_refl j) hj
    obtain ⟨t, htv⟩ := Option.isSome_iff_exists.mp ht
    obtain ⟨tp1, htp1⟩ := Option.isSome_iff_exists.mp htp
    obtain ⟨f, hfv⟩ := Option.isSome_iff_exists.mp hf
    have hrange : List.range' j (hi + 1 - j) = j :: List.range' (j + 1) (hi + 1 - (j + 1)) := by
      have h2 : hi + 1 - j = (hi + 1 - (j + 1)) + 1 := by omega
      rw [h2, List.range'_succ]
    have hpos : posFlowSum tp rmf j hi =
        (if tp1 < t then f else 0) + posFlowSum tp rmf (j + 1) hi := by
      unfold posFlowSum
      rw [hrange, List.map_cons, List.sum_cons, htv, htp1, hfv]
      simp
    have hneg : negFlowSum tp rmf j hi =
        (if t < tp1 then f else 0) + negFlowSum tp rmf (j + 1) hi := by
      unfold negFlowSum
      rw [hrange, List.map_cons, List.sum_cons, htv, htp1, hfv]
      simp
    have hrest : ∀ m, j + 1 ≤ m → m ≤ hi →
        (gv tp m).isSome ∧ (gv tp (m - 1)).isSome ∧ (gv rmf m).isSome :=
      fun m h1 h2 => hvalid m (by omega) h2
    rw [mfiFlowGo, dif_pos hj, htv, htp1, hfv]
    dsimp only
    by_cases hc1 : tp1 < t
    · rw [if_pos hc1, mfiFlowGo_eq tp rmf hi (j + 1) (pos + f) neg hrest,
        hpos, hneg, if_pos hc1, if_neg (lt_asymm hc1)]
      rw [Prod.ext_iff]
      constructor <;> dsimp only <;> ring
    · rw [if_neg hc1]
      by_cases hc2 : t < tp1
      · rw [if_pos hc2, mfiFlowGo_eq tp rmf hi (j + 1) pos (neg + f) hrest,
          hpos, hneg, if_neg hc1, if_pos hc2]
        rw [Prod.ext_iff]
        constructor <;> dsimp only <;> ring
      · rw [if_neg hc2, mfiFlowGo_eq tp rmf hi (j + 1) pos neg hrest,
          hpos, hneg, if_neg hc1, if_neg hc2]
        rw [Prod.ext_iff]
        constructor <;> dsimp only <;> ring
  · rw [mfiFlowGo, dif_neg hj]
    unfold posFlowSum negFlowSum
    have h0 : hi + 1 - j = 0 := by omega
    rw [h0]
    simp
termination_by j => hi + 1 - j
decreasing_by all_goals omega

/-- What the source's `mfi` emits at a valid index whose window is fully
valid, in terms of the window's two flow sums. -/
theorem mfi_window (high low close volume : List (Option ℚ)) (period i : ℕ)
    (h0 : i ≠ 0) (hip : period ≤ i) (hlen : i < close.length)
    (hvalid : ∀ m, i + 1 - period ≤ m → m ≤ i →
      (gv (typicalPrice high low close) m).isSome ∧
      (gv (typicalPrice high low close) (m - 1)).isSome ∧
      (gv (rawMoneyFlow (typicalPrice high low close) volume) m).isSome) :
    (mfi high low close volume period).getD i none =
      (if posFlowSum (typicalPrice high low close)
            (rawMoneyFlow (typicalPrice high low close) volume) (i + 1 - period) i = 0 ∧
          negFlowSum (typicalPrice high low close)
            (rawMoneyFlow (typicalPrice high low close) volume) (i + 1 - period) i = 0
       then none
       else if negFlowSum (typicalPrice high low close)
            (rawMoneyFlow (typicalPrice high low close) volume) (i + 1 - period) i = 0
       then some 100
       else some (100 - 100 /
         (1 + posFlowSum (typicalPrice high low close)
            (rawMoneyFlow (typicalPrice high low close) volume) (i + 1 - period) i /
          negFlowSum (typicalPrice high low close)
            (rawMoneyFlow (typicalPrice high low close) volume) (i + 1 - period) i))) := by
  unfold mfi
  rw [range_map_getD close.length i _ hlen]
  rw [if_neg (by omega : ¬ (i = 0 ∨ i < period))]
  rw [mfiFlowGo_eq (typicalPrice high low close)
    (rawMoneyFlow (typicalPrice high low close) volume) i (i + 1 - period) 0 0 hvalid]
  simp only [zero_add]

/-- **C3 (amended).** `mfi` zero-denominator rule over a fully valid window:
if the negative flow sum is zero and the positive flow sum is nonzero the
output is `100`; if *both* sums are zero the output is null (the source's
explicit `pos === 0 && neg === 0` guard, e.g. a perfectly flat typical-price
series); and with a nonzero negative sum the output is
`100 - 100 / (1 + posSum / negSum)`. -/
theorem mfi_zero_denominator (high low close volume : List (Option ℚ)) (period i : ℕ)
    (h0 : i ≠ 0) (hip : period ≤ i) (hlen : i < close.length)
    (hvalid : ∀ m, i + 1 - period ≤ m → m ≤ i →
      (gv (typicalPrice high low close) m).isSome ∧
      (gv (typicalPrice high low close) (m - 1)).isSome ∧
      (gv (rawMoneyFlow (typicalPrice high low close) volume) m).isSome) :
    (negFlowSum (typicalPrice high low close)
        (rawMoneyFlow (typicalPrice high low close) volume) (i + 1 - period) i = 0 →
      posFlowSum (typicalPrice high low close)
        (rawMoneyFlow (typicalPrice high low close) volume) (i + 1 - period) i ≠ 0 →
      (mfi high low close volume period).getD i none = some 100) ∧
    (negFlowSum (typicalPrice high low close)
        (rawMoneyFlow (typicalPrice high low close) volume) (i + 1 - period) i = 0 →
      posFlowSum (typicalPrice high low close)
        (rawMoneyFlow (typicalPrice high low close) volume) (i + 1 - period) i = 0 →
      (mfi high low close volume period).getD i none = none) ∧
    (negFlowSum (typicalPrice high low close)
        (rawMoneyFlow (typicalPrice high low close) volume) (i + 1 - period) i ≠ 0 →
      (mfi high low close volume period).getD i none =
        some (100 - 100 /
          (1 + posFlowSum (typicalPrice high low close)
              (rawMoneyFlow (typicalPrice high low close) volume) (i + 1 - period) i /
            negFlowSum (typicalPrice high low close)
              (rawMoneyFlow (typicalPrice high low close) volume) (i + 1 - period) i))) := by
  rw [mfi_window high low close volume period i h0 hip hlen hvalid]
  refine ⟨fun hN hP => ?_, fun hN hP => ?_, fun hN => ?_⟩
  · rw [if_neg (by tauto), if_pos hN]
  · rw [if_pos ⟨hP, hN⟩]
  · rw [if_neg (by tauto), if_neg hN]

theorem posFlowSum_const (tp rmf : List (Option ℚ)) (lo hi : ℕ)
    (hc : ∀ j, lo ≤ j → j ≤ hi → gv tp (j - 1) = gv tp j) :
    posFlowSum tp rmf lo hi = 0 := by
  unfold posFlowSum
  apply List.sum_eq_zero
  intro x hx
  rw [List.mem_map] at hx
  obtain ⟨j, hj, rfl⟩ := hx
  rw [List.mem_range'_1] at hj
  rw [hc j (by omega) (by omega)]
  simp

theorem negFlowSum_const (tp rmf : List (Option ℚ)) (lo hi : ℕ)
    (hc : ∀ j, lo ≤ j → j ≤ hi → gv tp (j - 1) = gv tp j) :
    negFlowSum tp rmf lo hi = 0 := by
  unfold negFlowSum
  apply List.sum_eq_zero
  intro x hx
  rw [List.mem_map] at hx
  obtain ⟨j, hj, rfl⟩ := hx
  rw [List.mem_range'_1] at hj
  rw [hc j (by omega) (by omega)]
  simp

/-- Counterexample to the claim as frozen: on a perfectly flat fifteen-bar
series (typical price constant, so the negative *and* positive flow sums are
both zero) the code emits null at index 14, not `100`. -/
theorem mfi_flat_null_cex :
    (mfi (List.replicate 15 (some 3)) (List.replicate 15 (some 3))
      (List.replicate 15 (some 3)) (List.replicate 15 (some 1)) 14).getD 14 none =
      none := by
  have hc : ∀ j, 14 + 1 - 14 ≤ j → j ≤ 14 →
      gv (typicalPrice (List.replicate 15 (some 3)) (List.replicate 15 (some 3))
        (List.replicate 15 (some 3))) (j - 1) =
      gv (typicalPrice (List.replicate 15 (some 3)) (List.replicate 15 (some 3))
        (List.replicate 15 (some 3))) j := by
    intro j h1 h2
    interval_cases j <;> rfl
  have hP := posFlowSum_const _ (rawMoneyFlow (typicalPrice (List.replicate 15 (some 3))
    (List.replicate 15 (some 3)) (List.replicate 15 (some 3)))
    (List.replicate 15 (some 1))) (14 + 1 - 14) 14 hc
  have hN := negFlowSum_const _ (rawMoneyFlow (typicalPrice (List.replicate 15 (some 3))
    (List.replicate 15 (some 3)) (List.replicate 15 (some 3)))
    (List.replicate 15 (some 1))) (14 + 1 - 14) 14 hc
  rw [mfi_window _ _ _ _ 14 14 (by norm_num) (by norm_num) (by norm_num)
    (fun m h1 h2 => by interval_cases m <;> exact ⟨rfl, rfl, rfl⟩)]
  rw [hP, hN]
  norm_num

/-- Fifteen closes: fourteen flat days then one up-move. -/
def mfiUpSeries : List (Option ℚ) :=
  [some 1, some 1, some 1, some 1, some 1, some 1, some 1, some 1, some 1,
   some 1, some 1, some 1, some 1, some 1, some 2]

/-- Witness for `mfi_zero_denominator`: on `mfiUpSeries` the negative flow
sum is zero and the positive one is not, so the output at index 14 is 100. -/
theorem mfi_zero_denominator_witness :
    (mfi mfiUpSeries mfiUpSeries mfiUpSeries (List.replicate 15 (some 1)) 14).getD 14 none =
      some 100 := by
  have htp : typicalPrice mfiUpSeries mfiUpSeries mfiUpSeries =
      [some ((1 + 1 + 1) / 3), some ((1 + 1 + 1) / 3), some ((1 + 1 + 1) / 3),
       some ((1 + 1 + 1) / 3), some ((1 + 1 + 1) / 3), some ((1 + 1 + 1) / 3),
       some ((1 + 1 + 1) / 3), some ((1 + 1 + 1) / 3), some ((1 + 1 + 1) / 3),
       some ((1 + 1 + 1) / 3), some ((1 + 1 + 1) / 3), some ((1 + 1 + 1) / 3),
       some ((1 + 1 + 1) / 3), some ((1 + 1 + 1) / 3), some ((2 + 2 + 2) / 3)] := rfl
  have hrmf : rawMoneyFlow (typicalPrice mfiUpSeries mfiUpSeries mfiUpSeries)
        (List.replicate 15 (some 1)) =
      [some ((1 + 1 + 1) / 3 * 1), some ((1 + 1 + 1) / 3 * 1), some ((1 + 1 + 1) / 3 * 1),
       some ((1 + 1 + 1) / 3 * 1), some ((1 + 1 + 1) / 3 * 1), some ((1 + 1 + 1) / 3 * 1),
       some ((1 + 1 + 1) / 3 * 1), some ((1 + 1 + 1) / 3 * 1), some ((1 + 1 + 1) / 3 * 1),
       some ((1 + 1 + 1) / 3 * 1), some ((1 + 1 + 1) / 3 * 1), some ((1 + 1 + 1) / 3 * 1),
       some ((1 + 1 + 1) / 3 * 1), some ((1 + 1 + 1) / 3 * 1),
       some ((2 + 2 + 2) / 3 * 1)] := rfl
  have hN : negFlowSum (typicalPrice mfiUpSeries mfiUpSeries mfiUpSeries)
      (rawMoneyFlow (typicalPrice mfiUpSeries mfiUpSeries mfiUpSeries)
        (List.replicate 15 (some 1))) (14 + 1 - 14) 14 = 0 := by
    unfold negFlowSum
    rw [hrmf, htp, show (14 : ℕ) + 1 - 14 = 1 from rfl, show (14 : ℕ) + 1 - 1 = 14 from rfl,
        show List.range' 1 14 = [1, 2, 3, 4, 5, 6, 7, 8, 9, 10, 11, 12, 13, 14] from rfl]
    norm_num [gv]
  have hP : posFlowSum (typicalPrice mfiUpSeries mfiUpSeries mfiUpSeries)
      (rawMoneyFlow (typicalPrice mfiUpSeries mfiUpSeries mfiUpSeries)
        (List.replicate 15 (some 1))) (14 + 1 - 14) 14 ≠ 0 := by
    unfold posFlowSum
    rw [hrmf, htp, show (14 : ℕ) + 1 - 14 = 1 from rfl, show (14 : ℕ) + 1 - 1 = 14 from rfl,
        show List.range' 1 14 = [1, 2, 3, 4, 5, 6, 7, 8, 9, 10, 11, 12, 13, 14] from rfl]
    norm_num [gv]
  exact (mfi_zero_denominator mfiUpSeries mfiUpSeries mfiUpSeries
    (List.replicate 15 (some 1)) 14 14 (by norm_num) (by norm_num)
    (by norm_num [mfiUpSeries])
    (fun m h1 h2 => by interval_cases m <;> exact ⟨rfl, rfl, rfl⟩)).1 hN hP

/-- The mean-deviation loop of the source's `cci`: sums `|tp[j] - m|` over
the window, aborting to `0` on a null (which the caller then treats as a
zero mean deviation). -/
def cciDevGo (tp : List (Option ℚ)) (m : ℚ) (hi j : ℕ) (sumDev : ℚ) : ℚ :=
  if _h : j ≤ hi then
    match gv tp j with
    | none => 0
    | some w => cciDevGo tp m hi (j + 1) (sumDev + |w - m|)
  else sumDev
termination_by hi + 1 - j
decreasing_by all_goals omega

/-- `cci(high, low, close, period)` of `subscription-widget.tsx`; the source
constant `0.015` is the exact rational `3 / 200`. -/
def cci (high low close : List (Option ℚ)) (period : ℕ) : List (Option ℚ) :=
  (List.range close.length).map fun i =>
    if i + 1 < period then none
    else
      match gv (typicalPrice high low close) i,
          gv (sma (typicalPrice high low close) period) i with
      | some t, some m =>
        if cciDevGo (typicalPrice high low close) m i (i + 1 - period) 0 / (period : ℚ) = 0
        then none
        else some ((t - m) /
          (3 / 200 * (cciDevGo (typicalPrice high low close) m i (i + 1 - period) 0 /
            (period : ℚ))))
      | _, _ => none

theorem typicalPrice_length (high low close : List (Option ℚ)) :
    (typicalPrice high low close).length = close.length := by
  simp [typicalPrice]

/-- **C5.** Division guard of `cci`: every emitted value comes from the
guarded branch with a nonzero mean deviation (so the division `(t - m) /
(0.015 * meanDev)` is never taken at zero and, over exact arithmetic, no
infinity or NaN can arise); a zero mean deviation yields null; and a null
typical price anywhere in the window yields null. -/
theorem cci_division_guard (high low close : List (Option ℚ)) (period i : ℕ)
    (hp : 0 < period) :
    (∀ q, (cci high low close period).getD i none = some q →
      ∃ t m, gv (typicalPrice high low close) i = some t ∧
        gv (sma (typicalPrice high low close) period) i = some m ∧
        cciDevGo (typicalPrice high low close) m i (i + 1 - period) 0 / (period : ℚ) ≠ 0 ∧
        q = (t - m) / (3 / 200 *
          (cciDevGo (typicalPrice high low close) m i (i + 1 - period) 0 / (period : ℚ)))) ∧
    (∀ t m, gv (typicalPrice high low close) i = some t →
      gv (sma (typicalPrice high low close) period) i = some m →
      cciDevGo (typicalPrice high low close) m i (i + 1 - period) 0 / (period : ℚ) = 0 →
      (cci high low close period).getD i none = none) ∧
    ((∃ j, i + 1 - period ≤ j ∧ j ≤ i ∧ gv (typicalPrice high low close) j = none) →
      i < close.length → period ≤ i + 1 →
      (cci high low close period).getD i none = none) := by
  by_cases hil : i < close.length
  · refine ⟨fun q hq => ?_, fun t m ht hm hdev => ?_, fun hnull h2 h3 => ?_⟩
    · rw [cci, range_map_getD close.length i _ hil] at hq
      by_cases h1 : i + 1 < period
      · rw [if_pos h1] at hq
        cases hq
      · rw [if_neg h1] at hq
        cases ht : gv (typicalPrice high low close) i with
        | none => rw [ht] at hq; cases hq
        | some t =>
          cases hm : gv (sma (typicalPrice high low close) period) i with
          | none => rw [ht, hm] at hq; cases hq
          | some m =>
            rw [ht, hm] at hq
            dsimp only at hq
            by_cases hdev : cciDevGo (typicalPrice high low close) m i (i + 1 - period) 0 /
                (period : ℚ) = 0
            · rw [if_pos hdev] at hq
              cases hq
            · rw [if_neg hdev] at hq
              exact ⟨t, m, rfl, rfl, hdev, (Option.some_inj.mp hq).symm⟩
    · rw [cci, range_map_getD close.length i _ hil]
      by_cases h1 : i + 1 < period
      · rw [if_pos h1]
      · rw [if_neg h1, ht, hm]
        dsimp only
        rw [if_pos hdev]
    · have hlen : i < (typicalPrice high low close).length := by
        rw [typicalPrice_length]; exact h2
      have hsma := (sma_window (typicalPrice high low close) period i hp hlen).2 hnull
      rw [cci, range_map_getD close.length i _ hil, if_neg (by omega)]
      cases ht : gv (typicalPrice high low close) i with
      | none => rfl
      | some t =>
        have : gv (sma (typicalPrice high low close) period) i = none := hsma
        rw [this]
  · have hnone : (cci high low close period).getD i none = none := by
      apply List.getD_eq_default
      rw [cci, List.length_map, List.length_range]
      omega
    exact ⟨fun q hq => (by rw [hnone] at hq; cases hq),
      fun t m ht hm hdev => hnone, fun h1 h2 h3 => hnone⟩

/-- Witness for `cci_division_guard`: a window broken by a null close (index
5 of twenty bars) yields a null CCI at index 19. -/
theorem cci_division_guard_witness :
    (cci [some 1, some 1, some 1, some 1, some 1, none, some 1, some 1, some 1,
          some 1, some 1, some 1, some 1, some 1, some 1, some 1, some 1, some 1,
          some 1, some 1]
         [some 1, some 1, some 1, some 1, some 1, none, some 1, some 1, some 1,
          some 1, some 1, some 1, some 1, some 1, some 1, some 1, some 1, some 1,
          some 1, some 1]
         [some 1, some 1, some 1, some 1, some 1, none, some 1, some 1, some 1,
          some 1, some 1, some 1, some 1, some 1, some 1, some 1, some 1, some 1,
          some 1, some 1] 20).getD 19 none = none := by
  exact (cci_division_guard _ _ _ 20 19 (by norm_num)).2.2
    ⟨5, by norm_num, by norm_num, rfl⟩ (by norm_num) (by norm_num)

/-- One row of `TaseSecuritiesEndOfDayTradingData`: the ingested price/volume
fields and the fourteen indicator columns the refresh job writes. -/
structure Bar where
  symbol : String
  tradeDate : ℕ
  marketType : String
  openingPrice : Option ℚ
  high : Option ℚ
  low : Option ℚ
  closingPrice : Option ℚ
  basePrice : Option ℚ
  change : Option ℚ
  volume : Option ℚ
  turnover : Option ℚ
  marketCap : Option ℚ
  rsi14 : Option ℚ
  macd : Option ℚ
  macdSignal : Option ℚ
  macdHist : Option ℚ
  cci20 : Option ℚ
  mfi14 : Option ℚ
  turnover10 : Option ℚ
  sma20 : Option ℚ
  sma50 : Option ℚ
  sma200 : Option ℚ
  ez : Option ℚ
  stddev20 : Option ℚ
  upperBollingerBand20 : Option ℚ
  lowerBollingerBand20 : Option ℚ
  deriving DecidableEq

/-- The SQL key `ORDER BY ez ASC, symbol ASC` on a nullable column:
ascending `ez` with nulls last (the Postgres default for `ASC`), ties broken
by `symbol` ascending. -/
def ezKeyLE : Option ℚ × String → Option ℚ × String → Prop
  | (some x, s), (some y, t) => x < y ∨ (x = y ∧ s ≤ t)
  | (some _, _), (none, _) => True
  | (none, _), (some _, _) => False
  | (none, s), (none, t) => s ≤ t

/-- Row order of the uptrend query's result set. -/
def ezLE (a b : Bar) : Prop := ezKeyLE (a.ez, a.symbol) (b.ez, b.symbol)

instance ezKeyLE_dec : DecidableRel ezKeyLE := fun p q => by
  rcases p with ⟨_ | x, s⟩ <;> rcases q with ⟨_ | y, t⟩ <;> dsimp only [ezKeyLE] <;>
    infer_instance

instance ezLE_dec : DecidableRel ezLE := fun a b =>
  inferInstanceAs (Decidable (ezKeyLE _ _))

instance ezLE_total : IsTotal Bar ezLE := by
  constructor
  intro a b
  unfold ezLE
  rcases ha : a.ez with _ | x <;> rcases hb : b.ez with _ | y <;> dsimp only [ezKeyLE]
  · exact le_total _ _
  · right; trivial
  · left; trivial
  · rcases lt_trichotomy x y with h | h | h
    · exact Or.inl (Or.inl h)
    · subst h
      rcases le_total a.symbol b.symbol with hs | hs
      · exact Or.inl (Or.inr ⟨rfl, hs⟩)
      · exact Or.inr (Or.inr ⟨rfl, hs⟩)
    · exact Or.inr (Or.inl h)

instance ezLE_trans : IsTrans Bar ezLE := by
  constructor
  intro a b c hab hbc
  unfold ezLE at hab hbc ⊢
  rcases ha : a.ez with _ | x <;> rcases hb : b.ez with _ | y <;>
    rcases hc : c.ez with _ | z <;>
    rw [ha, hb] at hab <;> rw [hb, hc] at hbc <;> dsimp only [ezKeyLE] at *
  all_goals first
    | exact le_trans hab hbc
    | exact hab.elim
    | exact hbc.elim
    | (rcases hab with h1 | ⟨he1, hs1⟩ <;> rcases hbc with h2 | ⟨he2, hs2⟩ <;>
        first
          | exact Or.inl (lt_trans h1 h2)
          | exact Or.inl (he2 ▸ h1)
          | exact Or.inl (he1 ▸ h2)
          | exact Or.inr ⟨he1.trans he2, le_trans hs1 hs2⟩)

/-- The `WHERE` clause of `fetchUptrendSymbols`: target date and segment,
the seven screened columns non-null, `turnover10 ≥ 1,500,000`,
`rsi14 BETWEEN 60 AND 70`, `macdHist ≥ 0`, and the strictly increasing stack
`closingPrice > sma20 > sma50 > sma200`. -/
def uptrendKeep (d : ℕ) (mt : String) (r : Bar) : Bool :=
  decide (r.tradeDate = d) && decide (r.marketType = mt) &&
  (match r.turnover10, r.rsi14, r.macdHist, r.closingPrice, r.sma20, r.sma50, r.sma200 with
   | some t10, some rv, some mh, some cp, some s20, some s50, some s200 =>
     decide (1500000 ≤ t10) && decide (60 ≤ rv) && decide (rv ≤ 70) && decide (0 ≤ mh) &&
       decide (s20 < cp) && decide (s50 < s20) && decide (s200 < s50)
   | _, _, _, _, _, _, _ => false)

/-- The rows the uptrend query returns, in its `ORDER BY` order. -/
def uptrendRows (db : List Bar) (d : ℕ) (mt : String) : List Bar :=
  List.insertionSort ezLE (db.filter (uptrendKeep d mt))

/-- `fetchUptrendSymbols`: each returned item is `(symbol, Number(ez))`
(`Number(null)` is `0`). -/
def fetchUptrendSymbols (db : List Bar) (d : ℕ) (mt : String) : List (String × ℚ) :=
  (uptrendRows db d mt).map fun r => (r.symbol, (r.ez).getD 0)

theorem uptrendKeep_iff (d : ℕ) (mt : String) (r : Bar) :
    uptrendKeep d mt r = true ↔
      r.tradeDate = d ∧ r.marketType = mt ∧
      (∃ t10, r.turnover10 = some t10 ∧ 1500000 ≤ t10) ∧
      (∃ rv, r.rsi14 = some rv ∧ 60 ≤ rv ∧ rv ≤ 70) ∧
      (∃ mh, r.macdHist = some mh ∧ 0 ≤ mh) ∧
      (∃ cp s20 s50 s200, r.closingPrice = some cp ∧ r.sma20 = some s20 ∧
        r.sma50 = some s50 ∧ r.sma200 = some s200 ∧
        s20 < cp ∧ s50 < s20 ∧ s200 < s50) := by
  unfold uptrendKeep
  rcases h1 : r.turnover10 with _ | t10 <;> rcases h2 : r.rsi14 with _ | rv <;>
    rcases h3 : r.macdHist with _ | mh <;> rcases h4 : r.closingPrice with _ | cp <;>
    rcases h5 : r.sma20 with _ | s20 <;> rcases h6 : r.sma50 with _ | s50 <;>
    rcases h7 : r.sma200 with _ | s200 <;>
    simp <;> tauto

/-- **C6.** Uptrend screen membership and order: a symbol appears in
`fetchUptrendSymbols` exactly when some row of the store for that date and
segment passes all seven non-null screens with `turnover10 ≥ 1,500,000`,
`60 ≤ rsi14 ≤ 70`, `macdHist ≥ 0` and `close > sma20 > sma50 > sma200`
(so in particular no returned symbol has `rsi14 < 60`, `rsi14 > 70` or
`macdHist < 0`), and the returned rows are sorted by `ez` ascending with
ties broken by `symbol` ascending. -/
theorem fetchUptrendSymbols_spec (db : List Bar) (d : ℕ) (mt : String) :
    (∀ s : String, (∃ e, (s, e) ∈ fetchUptrendSymbols db d mt) ↔
      ∃ r ∈ db, r.symbol = s ∧ r.tradeDate = d ∧ r.marketType = mt ∧
        (∃ t10, r.turnover10 = some t10 ∧ 1500000 ≤ t10) ∧
        (∃ rv, r.rsi14 = some rv ∧ 60 ≤ rv ∧ rv ≤ 70) ∧
        (∃ mh, r.macdHist = some mh ∧ 0 ≤ mh) ∧
        (∃ cp s20 s50 s200, r.closingPrice = some cp ∧ r.sma20 = some s20 ∧
          r.sma50 = some s50 ∧ r.sma200 = some s200 ∧
          s20 < cp ∧ s50 < s20 ∧ s200 < s50)) ∧
    (uptrendRows db d mt).Pairwise ezLE := by
  constructor
  · intro s
    constructor
    · rintro ⟨e, he⟩
      rw [fetchUptrendSymbols, List.mem_map] at he
      obtain ⟨r, hr, hre⟩ := he
      rw [uptrendRows] at hr
      have hr2 : r ∈ db.filter (uptrendKeep d mt) :=
        (List.perm_insertionSort ezLE _).subset hr
      rw [List.mem_filter] at hr2
      obtain ⟨hrdb, hkeep⟩ := hr2
      obtain ⟨h1, h2, h3, h4, h5, h6⟩ := (uptrendKeep_iff d mt r).mp hkeep
      have hsym : r.symbol = s := congrArg Prod.fst hre
      exact ⟨r, hrdb, hsym, h1, h2, h3, h4, h5, h6⟩
    · rintro ⟨r, hrdb, hsym, h1, h2, h3, h4, h5, h6⟩
      refine ⟨(r.ez).getD 0, ?_⟩
      rw [fetchUptrendSymbols, List.mem_map]
      refine ⟨r, ?_, by rw [hsym]⟩
      rw [uptrendRows]
      apply (List.perm_insertionSort ezLE _).mem_iff.mpr
      rw [List.mem_filter]
      exact ⟨hrdb, (uptrendKeep_iff d mt r).mpr ⟨h1, h2, h3, h4, h5, h6⟩⟩
  · exact List.sorted_insertionSort ezLE _

/-- One market-spirit reading; all fields are null when the universe for the
requested date is empty. -/
structure MarketSpiritReading where
  score : Option String
  adv : Option ℤ
  adLine : Option ℤ
  deriving DecidableEq

/-- The universe `fetchMarketSpirit` reads: every row of the date and
segment. -/
def spiritStocks (db : List Bar) (mt : String) (d : ℕ) : List Bar :=
  db.filter fun r => decide (r.tradeDate = d ∧ r.marketType = mt)

/-- Advancing minus declining rows on one trade date (`change` null counts
as neither, as in both the in-process filter and the SQL `CASE WHEN`). -/
def advOn (db : List Bar) (mt : String) (t : ℕ) : ℤ :=
  ((spiritStocks db mt t).countP fun r => decide (0 < (r.change).getD 0) : ℤ) -
  ((spiritStocks db mt t).countP fun r => decide ((r.change).getD 0 < 0) : ℤ)

/-- Today's advance-decline count of `fetchMarketSpirit`. -/
def spiritAdv (db : List Bar) (mt : String) (d : ℕ) : ℤ := advOn db mt d

/-- The trailing cumulative advance-decline line: the source's raw query
groups rows of `[d - 90, d]` by trade date and sums the per-date counts
(dates with no rows contribute nothing). -/
def spiritAdLine (db : List Bar) (mt : String) (d : ℕ) : ℤ :=
  ((List.range' (d - 90) (d - (d - 90) + 1)).map fun t => advOn db mt t).sum

/-- `scorePoints` of the source: one point per condition, the four majority
conditions written as the source's `count / total > 0.5` over exact
rationals. -/
def scorePoints (db : List Bar) (mt : String) (d : ℕ) : ℕ :=
  (if 0 < spiritAdv db mt d then 1 else 0) +
  (if 0 < spiritAdLine db mt d then 1 else 0) +
  (if (1 : ℚ) / 2 < (((spiritStocks db mt d).countP fun r =>
      match r.ez with | some e => decide (0 < e) | none => false : ℕ) : ℚ) /
      ((spiritStocks db mt d).length : ℚ) then 1 else 0) +
  (if (1 : ℚ) / 2 < (((spiritStocks db mt d).countP fun r =>
      match r.rsi14 with | some e => decide (50 < e) | none => false : ℕ) : ℚ) /
      ((spiritStocks db mt d).length : ℚ) then 1 else 0) +
  (if (1 : ℚ) / 2 < (((spiritStocks db mt d).countP fun r =>
      match r.macdHist with | some e => decide (0 < e) | none => false : ℕ) : ℚ) /
      ((spiritStocks db mt d).length : ℚ) then 1 else 0) +
  (if (1 : ℚ) / 2 < (((spiritStocks db mt d).countP fun r =>
      match r.cci20 with | some e => decide (0 < e) | none => false : ℕ) : ℚ) /
      ((spiritStocks db mt d).length : ℚ) then 1 else 0)

/-- `fetchMarketSpirit` of the query layer. -/
def fetchMarketSpirit (db : List Bar) (mt : String) (d : ℕ) : MarketSpiritReading :=
  if (spiritStocks db mt d).length = 0 then ⟨none, none, none⟩
  else
    ⟨some (if scorePoints db mt d ≤ 2 then "Defense"
           else if scorePoints db mt d ≤ 4 then "Selective" else "Attack"),
     some (spiritAdv db mt d), some (spiritAdLine db mt d)⟩

/-- Spec-side points: the same six conditions with the strict majorities
written as `total < 2 * count`. -/
def spiritPoints (db : List Bar) (mt : String) (d : ℕ) : ℕ :=
  (if 0 < spiritAdv db mt d then 1 else 0) +
  (if 0 < spiritAdLine db mt d then 1 else 0) +
  (if (spiritStocks db mt d).length < 2 * ((spiritStocks db mt d).countP fun r =>
      match r.ez with | some e => decide (0 < e) | none => false) then 1 else 0) +
  (if (spiritStocks db mt d).length < 2 * ((spiritStocks db mt d).countP fun r =>
      match r.rsi14 with | some e => decide (50 < e) | none => false) then 1 else 0) +
  (if (spiritStocks db mt d).length < 2 * ((spiritStocks db mt d).countP fun r =>
      match r.macdHist with | some e => decide (0 < e) | none => false) then 1 else 0) +
  (if (spiritStocks db mt d).length < 2 * ((spiritStocks db mt d).countP fun r =>
      match r.cci20 with | some e => decide (0 < e) | none => false) then 1 else 0)

theorem half_lt_div_iff (t : ℕ) (ht : 0 < t) (c : ℕ) :
    ((1 : ℚ) / 2 < (c : ℚ) / (t : ℚ)) ↔ t < 2 * c := by
  rw [div_lt_div_iff (by norm_num : (0 : ℚ) < 2) (by exact_mod_cast ht), one_mul, mul_comm]
  exact_mod_cast Iff.rfl

theorem scorePoints_eq (db : List Bar) (mt : String) (d : ℕ)
    (ht : 0 < (spiritStocks db mt d).length) :
    scorePoints db mt d = spiritPoints db mt d := by
  unfold scorePoints spiritPoints
  simp only [half_lt_div_iff _ ht]

theorem regime_eq (P : ℕ) :
    (if P ≤ 2 then "Defense" else if P ≤ 4 then "Selective" else "Attack") =
      (if 5 ≤ P then "Attack" else if 3 ≤ P then "Selective" else "Defense") := by
  by_cases h1 : P ≤ 2
  · rw [if_pos h1, if_neg (by omega), if_neg (by omega)]
  · rw [if_neg h1]
    by_cases h2 : P ≤ 4
    · rw [if_pos h2, if_neg (by omega), if_pos (by omega)]
    · rw [if_neg h2, if_pos (by omega)]

/-- **C7.** Market Spirit scoring: with a non-empty universe the reading is
the advance-decline count, the ~90-day cumulative line, and the regime
classifying the six-point total (`breadth > 0`, `adLine > 0`, four strict
majorities) as Attack for 5–6 points, Selective for 3–4, Defense for 0–2;
with an empty universe every field is null. -/
theorem fetchMarketSpirit_spec (db : List Bar) (mt : String) (d : ℕ) :
    (spiritStocks db mt d = [] →
      fetchMarketSpirit db mt d = ⟨none, none, none⟩) ∧
    (spiritStocks db mt d ≠ [] →
      fetchMarketSpirit db mt d =
        ⟨some (if 5 ≤ spiritPoints db mt d then "Attack"
               else if 3 ≤ spiritPoints db mt d then "Selective" else "Defense"),
         some (spiritAdv db mt d), some (spiritAdLine db mt d)⟩) := by
  constructor
  · intro he
    unfold fetchMarketSpirit
    rw [if_pos (by rw [he]; rfl)]
  · intro hne
    have ht : 0 < (spiritStocks db mt d).length := List.length_pos.mpr hne
    unfold fetchMarketSpirit
    rw [if_neg (by omega), scorePoints_eq db mt d ht, regime_eq]

/-- The seed window check of `ema`: sum of `values[j]` for `j ∈ [lo, lo+n)`,
`none` when any element is null (the source's `ok` flag). -/
def seedSum (values : List (Option ℚ)) (lo n : ℕ) : Option ℚ :=
  match n with
  | 0 => some 0
  | m + 1 =>
    match gv values lo with
    | none => none
    | some w => (seedSum values (lo + 1) m).map fun t => w + t

/-- The source's `ema` loop from index `i` with carried `prev`: resets on a
null, seeds with the simple mean of an unbroken run of `period` values, then
updates `v*k + prev*(1-k)` with `k = 2/(period+1)`. -/
def emaGo (values : List (Option ℚ)) (period i : ℕ) (prev : Option ℚ) :
    List (Option ℚ) :=
  if _h : i < values.length then
    match gv values i with
    | none => none :: emaGo values period (i + 1) none
    | some v =>
      match prev with
      | none =>
        if period ≤ i + 1 then
          match seedSum values (i + 1 - period) period with
          | none => none :: emaGo values period (i + 1) none
          | some sum =>
            some (sum / (period : ℚ)) ::
              emaGo values period (i + 1) (some (sum / (period : ℚ)))
        else none :: emaGo values period (i + 1) none
      | some p =>
        some (v * (2 / ((period : ℚ) + 1)) + p * (1 - 2 / ((period : ℚ) + 1))) ::
          emaGo values period (i + 1)
            (some (v * (2 / ((period : ℚ) + 1)) + p * (1 - 2 / ((period : ℚ) + 1))))
  else []
termination_by values.length - i
decreasing_by all_goals omega

/-- `ema(values, period)` of `subscription-widget.tsx`. -/
def ema (values : List (Option ℚ)) (period : ℕ) : List (Option ℚ) :=
  emaGo values period 0 none

/-- The `macd` array of `macd12269`: `ema12 - ema26`, null when either is. -/
def macdLine (values : List (Option ℚ)) : List (Option ℚ) :=
  (List.range values.length).map fun i =>
    match gv (ema values 12) i, gv (ema values 26) i with
    | some a, some b => some (a - b)
    | _, _ => none

/-- `macd12269(values)`: `(macd, macdSignal, macdHist)`. -/
def macd12269 (values : List (Option ℚ)) :
    List (Option ℚ) × List (Option ℚ) × List (Option ℚ) :=
  (macdLine values, ema (macdLine values) 9,
   (List.range values.length).map fun i =>
     match gv (macdLine values) i, gv (ema (macdLine values) 9) i with
     | some m, some s => some (m - s)
     | _, _ => none)

/-- The source's `stddev` loop: explicit sliding window, reset on null,
population variance over the window, and `Math.sqrt` as the uninterpreted
parameter `sq`. -/
def stddevGo (sq : ℚ → ℚ) (values : List (Option ℚ)) (period i : ℕ)
    (window : List ℚ) : List (Option ℚ) :=
  if _h : i < values.length then
    match gv values i with
    | none => none :: stddevGo sq values period (i + 1) []
    | some v =>
      (if (if period < (window ++ [v]).length then (window ++ [v]).drop 1
           else window ++ [v]).length = period then
        some (sq ((((if period < (window ++ [v]).length then (window ++ [v]).drop 1
              else window ++ [v]).map fun b =>
                (b - (if period < (window ++ [v]).length then (window ++ [v]).drop 1
                      else window ++ [v]).sum / (period : ℚ)) ^ 2).sum) / (period : ℚ)))
       else none) ::
        stddevGo sq values period (i + 1)
          (if period < (window ++ [v]).length then (window ++ [v]).drop 1
           else window ++ [v])
  else []
termination_by values.length - i
decreasing_by all_goals omega

/-- `stddev(values, period)` of `subscription-widget.tsx`. -/
def stddev (sq : ℚ → ℚ) (values : List (Option ℚ)) (period : ℕ) : List (Option ℚ) :=
  stddevGo sq values period 0 []

/-- `ez(close, sma20Arr)` of `subscription-widget.tsx`:
`100 * (close - sma20) / sma20`, null when either input is null or the mean
is zero. -/
def ez (close sma20Arr : List (Option ℚ)) : List (Option ℚ) :=
  (List.range close.length).map fun i =>
    match gv close i, gv sma20Arr i with
    | some c, some m => if m = 0 then none else some (100 * ((c - m) / m))
    | _, _ => none

/-- The fourteen indicator columns `updateTradingDayIndicators` writes. -/
structure Indicators where
  rsi14 : Option ℚ
  macd : Option ℚ
  macdSignal : Option ℚ
  macdHist : Option ℚ
  cci20 : Option ℚ
  mfi14 : Option ℚ
  turnover10 : Option ℚ
  sma20 : Option ℚ
  sma50 : Option ℚ
  sma200 : Option ℚ
  ez : Option ℚ
  stddev20 : Option ℚ
  upperBollingerBand20 : Option ℚ
  lowerBollingerBand20 : Option ℚ
  deriving DecidableEq

/-- `LOOKBACK_DAYS` of the source. -/
def LOOKBACK_DAYS : ℕ := 450

/-- Row order of a date relation: `orderBy tradeDate asc`. -/
def dateLE (a b : Bar) : Prop := a.tradeDate ≤ b.tradeDate

instance dateLE_dec : DecidableRel dateLE := fun a b =>
  inferInstanceAs (Decidable (_ ≤ _))

/-- The `findMany` of `getTradingIndicators`: one symbol's rows in the date
range, trade-date ascending. -/
def fetchSymbolRows (db : List Bar) (s : String) (lo hi : ℕ) : List Bar :=
  List.insertionSort dateLE
    (db.filter fun r => decide (r.symbol = s ∧ lo ≤ r.tradeDate ∧ r.tradeDate ≤ hi))

/-- `getTradingIndicators` of `subscription-widget.tsx`: build the five
column series of the window, run every indicator, and take each array's
value at the last row. -/
def getTradingIndicators (sq : ℚ → ℚ) (db : List Bar) (symbol : String)
    (tradeDate lo : ℕ) : Indicators :=
  { rsi14 := gv (rsi ((fetchSymbolRows db symbol lo tradeDate).map Bar.closingPrice) 14)
      ((fetchSymbolRows db symbol lo tradeDate).length - 1),
    macd := gv (macd12269 ((fetchSymbolRows db symbol lo tradeDate).map Bar.closingPrice)).1
      ((fetchSymbolRows db symbol lo tradeDate).length - 1),
    macdSignal := gv (macd12269 ((fetchSymbolRows db symbol lo tradeDate).map Bar.closingPrice)).2.1
      ((fetchSymbolRows db symbol lo tradeDate).length - 1),
    macdHist := gv (macd12269 ((fetchSymbolRows db symbol lo tradeDate).map Bar.closingPrice)).2.2
      ((fetchSymbolRows db symbol lo tradeDate).length - 1),
    cci20 := gv (cci ((fetchSymbolRows db symbol lo tradeDate).map Bar.high)
        ((fetchSymbolRows db symbol lo tradeDate).map Bar.low)
        ((fetchSymbolRows db symbol lo tradeDate).map Bar.closingPrice) 20)
      ((fetchSymbolRows db symbol lo tradeDate).length - 1),
    mfi14 := gv (mfi ((fetchSymbolRows db symbol lo tradeDate).map Bar.high)
        ((fetchSymbolRows db symbol lo tradeDate).map Bar.low)
        ((fetchSymbolRows db symbol lo tradeDate).map Bar.closingPrice)
        ((fetchSymbolRows db symbol lo tradeDate).map Bar.volume) 14)
      ((fetchSymbolRows db symbol lo tradeDate).length - 1),
    turnover10 := gv (sma ((fetchSymbolRows db symbol lo tradeDate).map Bar.turnover) 10)
      ((fetchSymbolRows db symbol lo tradeDate).length - 1),
    sma20 := gv (sma ((fetchSymbolRows db symbol lo tradeDate).map Bar.closingPrice) 20)
      ((fetchSymbolRows db symbol lo tradeDate).length - 1),
    sma50 := gv (sma ((fetchSymbolRows db symbol lo tradeDate).map Bar.closingPrice) 50)
      ((fetchSymbolRows db symbol lo tradeDate).length - 1),
    sma200 := gv (sma ((fetchSymbolRows db symbol lo tradeDate).map Bar.closingPrice) 200)
      ((fetchSymbolRows db symbol lo tradeDate).length - 1),
    ez := gv (ez ((fetchSymbolRows db symbol lo tradeDate).map Bar.closingPrice)
        (sma ((fetchSymbolRows db symbol lo tradeDate).map Bar.closingPrice) 20))
      ((fetchSymbolRows db symbol lo tradeDate).length - 1),
    stddev20 := gv (stddev sq ((fetchSymbolRows db symbol lo tradeDate).map Bar.closingPrice) 20)
      ((fetchSymbolRows db symbol lo tradeDate).length - 1),
    upperBollingerBand20 := gv ((List.range ((fetchSymbolRows db symbol lo tradeDate).map Bar.closingPrice).length).map fun i =>
        match gv (stddev sq ((fetchSymbolRows db symbol lo tradeDate).map Bar.closingPrice) 20) i,
            gv (sma ((fetchSymbolRows db symbol lo tradeDate).map Bar.closingPrice) 20) i with
        | some sd, some m => some (m + 2 * sd)
        | _, _ => none)
      ((fetchSymbolRows db symbol lo tradeDate).length - 1),
    lowerBollingerBand20 := gv ((List.range ((fetchSymbolRows db symbol lo tradeDate).map Bar.closingPrice).length).map fun i =>
        match gv (stddev sq ((fetchSymbolRows db symbol lo tradeDate).map Bar.closingPrice) 20) i,
            gv (sma ((fetchSymbolRows db symbol lo tradeDate).map Bar.closingPrice) 20) i with
        | some sd, some m => some (m - 2 * sd)
        | _, _ => none)
      ((fetchSymbolRows db symbol lo tradeDate).length - 1) }

/-- The `prisma.update` data of `updateTradingDayIndicators`: overwrite
exactly the fourteen indicator columns of a row. -/
def applyIndicators (r : Bar) (v : Indicators) : Bar :=
  { r with
    rsi14 := v.rsi14, macd := v.macd, macdSignal := v.macdSignal,
    macdHist := v.macdHist, cci20 := v.cci20, mfi14 := v.mfi14,
    turnover10 := v.turnover10, sma20 := v.sma20, sma50 := v.sma50,
    sma200 := v.sma200, ez := v.ez, stddev20 := v.stddev20,
    upperBollingerBand20 := v.upperBollingerBand20,
    lowerBollingerBand20 := v.lowerBollingerBand20 }

/-- `updateTradingDayIndicators`: enumerate the symbols traded on the date
in the segment, compute each one's indicators over the 450-day lookback
window from the current store, and overwrite that symbol's row for the date;
returns the new store and the updated count.  (The per-symbol indicator
value is a pure function of the accumulator, so computing it inside the
row-wise map is the same single value the source computes once per
symbol.) -/
def updateTradingDayIndicators (sq : ℚ → ℚ) (db : List Bar) (tradeDate : ℕ)
    (marketType : String) : List Bar × ℕ :=
  ((((db.filter fun r => decide (r.tradeDate = tradeDate ∧ r.marketType = marketType)).map
      Bar.symbol).foldl (fun acc s =>
        acc.map fun r =>
          if r.symbol = s ∧ r.tradeDate = tradeDate then
            applyIndicators r (getTradingIndicators sq acc s tradeDate (tradeDate - LOOKBACK_DAYS))
          else r) db),
   ((db.filter fun r => decide (r.tradeDate = tradeDate ∧ r.marketType = marketType)).map
      Bar.symbol).length)

/-- The row columns the refresh pipeline reads: the enumeration keys and the
five selected series columns. -/
def barProj (r : Bar) :
    String × ℕ × String × Option ℚ × Option ℚ × Option ℚ × Option ℚ × Option ℚ :=
  (r.symbol, r.tradeDate, r.marketType, r.closingPrice, r.high, r.low, r.volume,
   r.turnover)

/-- Every ingested (non-indicator) column of a row. -/
def barFields (r : Bar) :
    String × ℕ × String × Option ℚ × Option ℚ × Option ℚ × Option ℚ × Option ℚ ×
      Option ℚ × Option ℚ × Option ℚ × Option ℚ :=
  (r.symbol, r.tradeDate, r.marketType, r.openingPrice, r.high, r.low,
   r.closingPrice, r.basePrice, r.change, r.volume, r.turnover, r.marketCap)

theorem barProj_applyIndicators (r : Bar) (v : Indicators) :
    barProj (applyIndicators r v) = barProj r := rfl

theorem barFields_applyIndicators (r : Bar) (v : Indicators) :
    barFields (applyIndicators r v) = barFields r := rfl

theorem applyIndicators_absorb (r : Bar) (x y : Indicators) :
    applyIndicators (applyIndicators r x) y = applyIndicators r y := rfl

theorem filter_map_proj (p : Bar → Bool)
    (hp : ∀ a b : Bar, barProj a = barProj b → p a = p b) :
    ∀ (l₁ l₂ : List Bar), l₁.map barProj = l₂.map barProj →
      (l₁.filter p).map barProj = (l₂.filter p).map barProj := by
  intro l₁
  induction l₁ with
  | nil =>
    intro l₂ h
    cases l₂ with
    | nil => rfl
    | cons b t => simp at h
  | cons a t ih =>
    intro l₂ h
    cases l₂ with
    | nil => simp at h
    | cons b t₂ =>
      simp only [List.map_cons, List.cons.injEq] at h
      obtain ⟨hab, ht⟩ := h
      rw [List.filter_cons, List.filter_cons, hp a b hab]
      cases hpb : p b
      · simp only [Bool.false_eq_true, if_false]
        exact ih t₂ ht
      · simp only [if_true, List.map_cons, List.cons.injEq]
        exact ⟨hab, ih t₂ ht⟩

theorem orderedInsert_map_proj :
    ∀ (l₁ l₂ : List Bar) (a b : Bar), barProj a = barProj b →
      l₁.map barProj = l₂.map barProj →
      (List.orderedInsert dateLE a l₁).map barProj =
        (List.orderedInsert dateLE b l₂).map barProj := by
  intro l₁
  induction l₁ with
  | nil =>
    intro l₂ a b hab h
    cases l₂ with
    | nil => simpa using hab
    | cons c t => simp at h
  | cons c t ih =>
    intro l₂ a b hab h
    cases l₂ with
    | nil => simp at h
    | cons c₂ t₂ =>
      simp only [List.map_cons, List.cons.injEq] at h
      obtain ⟨hc, ht⟩ := h
      have hdate : a.tradeDate = b.tradeDate := congrArg (fun p => p.2.1) hab
      have hcdate : c.tradeDate = c₂.tradeDate := congrArg (fun p => p.2.1) hc
      rw [List.orderedInsert, List.orderedInsert]
      by_cases hle : dateLE a c
      · rw [if_pos hle, if_pos (show dateLE b c₂ by unfold dateLE at hle ⊢; omega)]
        simp only [List.map_cons, List.cons.injEq]
        exact ⟨hab, hc, ht⟩
      · rw [if_neg hle, if_neg (show ¬ dateLE b c₂ by unfold dateLE at hle ⊢; omega)]
        simp only [List.map_cons, List.cons.injEq]
        exact ⟨hc, ih t₂ a b hab ht⟩

theorem insertionSort_map_proj :
    ∀ (l₁ l₂ : List Bar), l₁.map barProj = l₂.map barProj →
      (List.insertionSort dateLE l₁).map barProj =
        (List.insertionSort dateLE l₂).map barProj := by
  intro l₁
  induction l₁ with
  | nil =>
    intro l₂ h
    cases l₂ with
    | nil => rfl
    | cons b t => simp at h
  | cons a t ih =>
    intro l₂ h
    cases l₂ with
    | nil => simp at h
    | cons b t₂ =>
      simp only [List.map_cons, List.cons.injEq] at h
      obtain ⟨hab, ht⟩ := h
      rw [List.insertionSort, List.insertionSort]
      exact orderedInsert_map_proj _ _ a b hab (ih t₂ ht)

theorem fetchSymbolRows_proj (db₁ db₂ : List Bar) (s : String) (lo hi : ℕ)
    (h : db₁.map barProj = db₂.map barProj) :
    (fetchSymbolRows db₁ s lo hi).map barProj =
      (fetchSymbolRows db₂ s lo hi).map barProj := by
  unfold fetchSymbolRows
  apply insertionSort_map_proj
  apply filter_map_proj _ _ db₁ db₂ h
  intro a b hab
  have h1 : a.symbol = b.symbol := congrArg (fun p => p.1) hab
  have h2 : a.tradeDate = b.tradeDate := congrArg (fun p => p.2.1) hab
  simp [h1, h2]

theorem getTradingIndicators_proj (sq : ℚ → ℚ) (db₁ db₂ : List Bar) (s : String)
    (d lo : ℕ) (h : db₁.map barProj = db₂.map barProj) :
    getTradingIndicators sq db₁ s d lo = getTradingIndicators sq db₂ s d lo := by
  have hrows := fetchSymbolRows_proj db₁ db₂ s lo d h
  have hlen : (fetchSymbolRows db₁ s lo d).length =
      (fetchSymbolRows db₂ s lo d).length := by
    have h2 := congrArg List.length hrows
    simpa using h2
  have hclose : (fetchSymbolRows db₁ s lo d).map Bar.closingPrice =
      (fetchSymbolRows db₂ s lo d).map Bar.closingPrice := by
    have h2 := congrArg (List.map fun p :
      String × ℕ × String × Option ℚ × Option ℚ × Option ℚ × Option ℚ × Option ℚ =>
        p.2.2.2.1) hrows
    rw [List.map_map, List.map_map] at h2
    exact h2
  have hhigh : (fetchSymbolRows db₁ s lo d).map Bar.high =
      (fetchSymbolRows db₂ s lo d).map Bar.high := by
    have h2 := congrArg (List.map fun p :
      String × ℕ × String × Option ℚ × Option ℚ × Option ℚ × Option ℚ × Option ℚ =>
        p.2.2.2.2.1) hrows
    rw [List.map_map, List.map_map] at h2
    exact h2
  have hlow : (fetchSymbolRows db₁ s lo d).map Bar.low =
      (fetchSymbolRows db₂ s lo d).map Bar.low := by
    have h2 := congrArg (List.map fun p :
      String × ℕ × String × Option ℚ × Option ℚ × Option ℚ × Option ℚ × Option ℚ =>
        p.2.2.2.2.2.1) hrows
    rw [List.map_map, List.map_map] at h2
    exact h2
  have hvol : (fetchSymbolRows db₁ s lo d).map Bar.volume =
      (fetchSymbolRows db₂ s lo d).map Bar.volume := by
    have h2 := congrArg (List.map fun p :
      String × ℕ × String × Option ℚ × Option ℚ × Option ℚ × Option ℚ × Option ℚ =>
        p.2.2.2.2.2.2.1) hrows
    rw [List.map_map, List.map_map] at h2
    exact h2
  have hturn : (fetchSymbolRows db₁ s lo d).map Bar.turnover =
      (fetchSymbolRows db₂ s lo d).map Bar.turnover := by
    have h2 := congrArg (List.map fun p :
      String × ℕ × String × Option ℚ × Option ℚ × Option ℚ × Option ℚ × Option ℚ =>
        p.2.2.2.2.2.2.2) hrows
    rw [List.map_map, List.map_map] at h2
    exact h2
  unfold getTradingIndicators
  rw [hclose, hhigh, hlow, hvol, hturn, hlen]

/-- One conditional row update of the refresh loop. -/
def updRow (d : ℕ) (s : String) (v : Indicators) (r : Bar) : Bar :=
  if r.symbol = s ∧ r.tradeDate = d then applyIndicators r v else r

/-- The composite per-row effect of refreshing a list of symbols with fixed
per-symbol indicator values. -/
def chainUpd (d : ℕ) (v : String → Indicators) (syms : List String) (r : Bar) : Bar :=
  syms.foldl (fun r2 s => updRow d s (v s) r2) r

theorem barProj_updRow (d : ℕ) (s : String) (v : Indicators) (r : Bar) :
    barProj (updRow d s v r) = barProj r := by
  unfold updRow
  split <;> rfl

theorem barFields_updRow (d : ℕ) (s : String) (v : Indicators) (r : Bar) :
    barFields (updRow d s v r) = barFields r := by
  unfold updRow
  split <;> rfl

theorem updRow_symbol (d : ℕ) (s : String) (v : Indicators) (r : Bar) :
    (updRow d s v r).symbol = r.symbol := congrArg (fun p => p.1) (barProj_updRow d s v r)

theorem updRow_tradeDate (d : ℕ) (s : String) (v : Indicators) (r : Bar) :
    (updRow d s v r).tradeDate = r.tradeDate :=
  congrArg (fun p => p.2.1) (barProj_updRow d s v r)

theorem chainUpd_cons (d : ℕ) (v : String → Indicators) (s : String)
    (syms : List String) (r : Bar) :
    chainUpd d v (s :: syms) r = chainUpd d v syms (updRow d s (v s) r) := rfl

theorem barProj_chainUpd (d : ℕ) (v : String → Indicators) :
    ∀ (syms : List String) (r : Bar), barProj (chainUpd d v syms r) = barProj r := by
  intro syms
  induction syms with
  | nil => intro r; rfl
  | cons s t ih =>
    intro r
    rw [chainUpd_cons, ih, barProj_updRow]

theorem barFields_chainUpd (d : ℕ) (v : String → Indicators) :
    ∀ (syms : List String) (r : Bar), barFields (chainUpd d v syms r) = barFields r := by
  intro syms
  induction syms with
  | nil => intro r; rfl
  | cons s t ih =>
    intro r
    rw [chainUpd_cons, ih, barFields_updRow]

theorem chainUpd_symbol (d : ℕ) (v : String → Indicators) (syms : List String) (r : Bar) :
    (chainUpd d v syms r).symbol = r.symbol :=
  congrArg (fun p => p.1) (barProj_chainUpd d v syms r)

theorem chainUpd_tradeDate (d : ℕ) (v : String → Indicators) (syms : List String) (r : Bar) :
    (chainUpd d v syms r).tradeDate = r.tradeDate :=
  congrArg (fun p => p.2.1) (barProj_chainUpd d v syms r)

theorem chainUpd_noMatch (d : ℕ) (v : String → Indicators) :
    ∀ (syms : List String) (r : Bar),
      (∀ s ∈ syms, ¬ (r.symbol = s ∧ r.tradeDate = d)) → chainUpd d v syms r = r := by
  intro syms
  induction syms with
  | nil => intro r _; rfl
  | cons s t ih =>
    intro r hno
    rw [chainUpd_cons]
    have hs : ¬ (r.symbol = s ∧ r.tradeDate = d) := hno s (by simp)
    rw [show updRow d s (v s) r = r from by unfold updRow; rw [if_neg hs]]
    exact ih r fun s2 hs2 => hno s2 (by simp [hs2])

theorem chainUpd_after_apply (d : ℕ) (v : String → Indicators) :
    ∀ (syms : List String) (r : Bar) (x : Indicators),
      chainUpd d v syms (applyIndicators r x) =
        if ∃ s ∈ syms, r.symbol = s ∧ r.tradeDate = d then chainUpd d v syms r
        else applyIndicators r x := by
  intro syms
  induction syms with
  | nil =>
    intro r x
    rw [if_neg (by simp)]
    rfl
  | cons s₀ rest ih =>
    intro r x
    rw [chainUpd_cons]
    have hkey : ((applyIndicators r x).symbol = s₀ ∧ (applyIndicators r x).tradeDate = d) ↔
        (r.symbol = s₀ ∧ r.tradeDate = d) := Iff.rfl
    by_cases hk : r.symbol = s₀ ∧ r.tradeDate = d
    · rw [show updRow d s₀ (v s₀) (applyIndicators r x) = applyIndicators r (v s₀) from by
        unfold updRow; rw [if_pos (hkey.mpr hk), applyIndicators_absorb]]
      rw [if_pos ⟨s₀, by simp, hk⟩, chainUpd_cons]
      rw [show updRow d s₀ (v s₀) r = applyIndicators r (v s₀) from by
        unfold updRow; rw [if_pos hk]]
    · rw [show updRow d s₀ (v s₀) (applyIndicators r x) = applyIndicators r x from by
        unfold updRow; rw [if_neg (fun hc => hk (hkey.mp hc))]]
      rw [ih r x]
      by_cases hex : ∃ s ∈ rest, r.symbol = s ∧ r.tradeDate = d
      · rw [if_pos hex, if_pos (by obtain ⟨s, hs, hks⟩ := hex; exact ⟨s, by simp [hs], hks⟩)]
        rw [chainUpd_cons]
        rw [show updRow d s₀ (v s₀) r = r from by unfold updRow; rw [if_neg hk]]
      · rw [if_neg hex, if_neg ?_]
        rintro ⟨s, hs, hks⟩
        rcases List.mem_cons.mp hs with rfl | hs2
        · exact hk hks
        · exact hex ⟨s, hs2, hks⟩

theorem chainUpd_idem (d : ℕ) (v : String → Indicators) :
    ∀ (syms : List String) (r : Bar),
      chainUpd d v syms (chainUpd d v syms r) = chainUpd d v syms r := by
  intro syms
  induction syms with
  | nil => intro r; rfl
  | cons s₀ rest ih =>
    intro r
    rw [chainUpd_cons, chainUpd_cons]
    by_cases hk : r.symbol = s₀ ∧ r.tradeDate = d
    · have hr1 : updRow d s₀ (v s₀) r = applyIndicators r (v s₀) := by
        unfold updRow; rw [if_pos hk]
      rw [hr1]
      have hkey2 : (chainUpd d v rest (applyIndicators r (v s₀))).symbol = s₀ ∧
          (chainUpd d v rest (applyIndicators r (v s₀))).tradeDate = d := by
        rw [chainUpd_symbol, chainUpd_tradeDate]
        exact hk
      rw [show updRow d s₀ (v s₀) (chainUpd d v rest (applyIndicators r (v s₀))) =
          applyIndicators (chainUpd d v rest (applyIndicators r (v s₀))) (v s₀) from by
        unfold updRow; rw [if_pos hkey2]]
      rw [chainUpd_after_apply d v rest]
      by_cases hex : ∃ s ∈ rest,
          (chainUpd d v rest (applyIndicators r (v s₀))).symbol = s ∧
          (chainUpd d v rest (applyIndicators r (v s₀))).tradeDate = d
      · rw [if_pos hex]
        exact ih _
      · rw [if_neg hex]
        have hnom : ∀ s ∈ rest, ¬ ((applyIndicators r (v s₀)).symbol = s ∧
            (applyIndicators r (v s₀)).tradeDate = d) := by
          intro s hs hc
          exact hex ⟨s, hs, by rw [chainUpd_symbol, chainUpd_tradeDate]; exact hc⟩
        rw [chainUpd_noMatch d v rest _ hnom, applyIndicators_absorb]
    · have hr1 : updRow d s₀ (v s₀) r = r := by
        unfold updRow; rw [if_neg hk]
      rw [hr1]
      have hkey2 : ¬ ((chainUpd d v rest r).symbol = s₀ ∧
          (chainUpd d v rest r).tradeDate = d) := by
        rw [chainUpd_symbol, chainUpd_tradeDate]
        exact hk
      rw [show updRow d s₀ (v s₀) (chainUpd d v rest r) = chainUpd d v rest r from by
        unfold updRow; rw [if_neg hkey2]]
      exact ih r

theorem foldl_update_eq (sq : ℚ → ℚ) (d lo : ℕ) (db₀ : List Bar) :
    ∀ (syms : List String) (acc : List Bar), acc.map barProj = db₀.map barProj →
      syms.foldl (fun acc2 s =>
          acc2.map fun r =>
            if r.symbol = s ∧ r.tradeDate = d then
              applyIndicators r (getTradingIndicators sq acc2 s d lo)
            else r) acc =
        acc.map (chainUpd d (fun s => getTradingIndicators sq db₀ s d lo) syms) := by
  intro syms
  induction syms with
  | nil =>
    intro acc hacc
    rw [List.foldl_nil]
    have : chainUpd d (fun s => getTradingIndicators sq db₀ s d lo) [] = fun r => r := rfl
    rw [this, List.map_id']
  | cons s₀ rest ih =>
    intro acc hacc
    rw [List.foldl_cons]
    have hgti : getTradingIndicators sq acc s₀ d lo = getTradingIndicators sq db₀ s₀ d lo :=
      getTradingIndicators_proj sq acc db₀ s₀ d lo hacc
    have hstep : (acc.map fun r =>
        if r.symbol = s₀ ∧ r.tradeDate = d then
          applyIndicators r (getTradingIndicators sq acc s₀ d lo) else r) =
        acc.map (updRow d s₀ (getTradingIndicators sq db₀ s₀ d lo)) := by
      rw [hgti]
      rfl
    rw [hstep]
    have hacc2 : (acc.map (updRow d s₀ (getTradingIndicators sq db₀ s₀ d lo))).map barProj =
        db₀.map barProj := by
      rw [List.map_map]
      have hcomp : barProj ∘ updRow d s₀ (getTradingIndicators sq db₀ s₀ d lo) = barProj :=
        funext fun r => barProj_updRow d s₀ _ r
      rw [hcomp, hacc]
    rw [ih _ hacc2, List.map_map]
    congr 1

theorem forall₂_map_self (P : Bar → Bar → Prop) (F : Bar → Bar)
    (h : ∀ r, P (F r) r) : ∀ l : List Bar, List.Forall₂ P (l.map F) l := by
  intro l
  induction l with
  | nil => exact List.Forall₂.nil
  | cons a t ih => exact List.Forall₂.cons (h a) ih

/-- **C8.** Refresh idempotence: running `updateTradingDayIndicators` a
second time for the same date and segment over the store the first run
produced writes exactly the same indicator values and returns the same
count — the pair (new store, updated count) is a fixed point.  The key facts
are that the update touches no column `getTradingIndicators` reads, and that
re-applying a row's indicator tuple overwrites it with itself. -/
theorem updateTradingDayIndicators_idempotent (sq : ℚ → ℚ) (db : List Bar)
    (d : ℕ) (mt : String) :
    updateTradingDayIndicators sq (updateTradingDayIndicators sq db d mt).1 d mt =
      updateTradingDayIndicators sq db d mt := by
  have h1 : (updateTradingDayIndicators sq db d mt).1 =
      db.map (chainUpd d (fun s => getTradingIndicators sq db s d (d - LOOKBACK_DAYS))
        ((db.filter fun r => decide (r.tradeDate = d ∧ r.marketType = mt)).map Bar.symbol)) :=
    foldl_update_eq sq d (d - LOOKBACK_DAYS) db _ db rfl
  have hproj : ((updateTradingDayIndicators sq db d mt).1).map barProj = db.map barProj := by
    rw [h1, List.map_map]
    have hcomp : barProj ∘ chainUpd d
        (fun s => getTradingIndicators sq db s d (d - LOOKBACK_DAYS))
        ((db.filter fun r => decide (r.tradeDate = d ∧ r.marketType = mt)).map Bar.symbol) =
        barProj := funext fun r => barProj_chainUpd d _ _ r
    rw [hcomp]
  have hsyms : (((updateTradingDayIndicators sq db d mt).1).filter fun r =>
      decide (r.tradeDate = d ∧ r.marketType = mt)).map Bar.symbol =
      (db.filter fun r => decide (r.tradeDate = d ∧ r.marketType = mt)).map Bar.symbol := by
    have hf := filter_map_proj (fun r => decide (r.tradeDate = d ∧ r.marketType = mt))
      (fun a b hab => by
        have h2 : a.tradeDate = b.tradeDate := congrArg (fun p => p.2.1) hab
        have h3 : a.marketType = b.marketType := congrArg (fun p => p.2.2.1) hab
        simp [h2, h3])
      ((updateTradingDayIndicators sq db d mt).1) db hproj
    have h2 := congrArg (List.map fun p :
      String × ℕ × String × Option ℚ × Option ℚ × Option ℚ × Option ℚ × Option ℚ =>
        p.1) hf
    rw [List.map_map, List.map_map] at h2
    exact h2
  have h2run : (updateTradingDayIndicators sq (updateTradingDayIndicators sq db d mt).1 d mt).1 =
      ((updateTradingDayIndicators sq db d mt).1).map
        (chainUpd d (fun s => getTradingIndicators sq db s d (d - LOOKBACK_DAYS))
          ((db.filter fun r => decide (r.tradeDate = d ∧ r.marketType = mt)).map Bar.symbol)) := by
    conv_lhs => rw [updateTradingDayIndicators]
    dsimp only
    rw [hsyms]
    exact foldl_update_eq sq d (d - LOOKBACK_DAYS) db _ _ hproj
  have hstate : (updateTradingDayIndicators sq (updateTradingDayIndicators sq db d mt).1 d mt).1 =
      (updateTradingDayIndicators sq db d mt).1 := by
    rw [h2run, h1, List.map_map]
    congr 1
    funext r
    exact chainUpd_idem d _ _ r
  have hcount : (updateTradingDayIndicators sq (updateTradingDayIndicators sq db d mt).1 d mt).2 =
      (updateTradingDayIndicators sq db d mt).2 := by
    show ((((updateTradingDayIndicators sq db d mt).1).filter fun r =>
      decide (r.tradeDate = d ∧ r.marketType = mt)).map Bar.symbol).length = _
    rw [hsyms]
    rfl
  exact Prod.ext hstate hcount

/-- **C9.** Frame property of the refresh: the new store has the same length
and, row for row, every ingested column (`symbol`, `tradeDate`,
`marketType`, prices, volume, turnover, market cap, …) is unchanged — only
the fourteen indicator columns can differ — and any row whose `tradeDate`
is not the target date is completely untouched. -/
theorem updateTradingDayIndicators_frame (sq : ℚ → ℚ) (db : List Bar)
    (d : ℕ) (mt : String) :
    ((updateTradingDayIndicators sq db d mt).1).map barFields = db.map barFields ∧
    List.Forall₂ (fun r2 r => r.tradeDate ≠ d → r2 = r)
      (updateTradingDayIndicators sq db d mt).1 db := by
  have h1 : (updateTradingDayIndicators sq db d mt).1 =
      db.map (chainUpd d (fun s => getTradingIndicators sq db s d (d - LOOKBACK_DAYS))
        ((db.filter fun r => decide (r.tradeDate = d ∧ r.marketType = mt)).map Bar.symbol)) :=
    foldl_update_eq sq d (d - LOOKBACK_DAYS) db _ db rfl
  constructor
  · rw [h1, List.map_map]
    have hcomp : barFields ∘ chainUpd d
        (fun s => getTradingIndicators sq db s d (d - LOOKBACK_DAYS))
        ((db.filter fun r => decide (r.tradeDate = d ∧ r.marketType = mt)).map Bar.symbol) =
        barFields := funext fun r => barFields_chainUpd d _ _ r
    rw [hcomp]
  · rw [h1]
    apply forall₂_map_self
    intro r hne
    exact chainUpd_noMatch d _ _ r fun s _ hc => hne hc.2

/-- One aggregated candle row as the 3D/1W/1M/3M SQL produces it. -/
structure AggRow where
  tradeDate : ℕ
  openingPrice : Option ℚ
  high : Option ℚ
  low : Option ℚ
  closingPrice : Option ℚ
  volume : Option ℚ
  sma20 : Option ℚ
  sma50 : Option ℚ
  sma200 : Option ℚ
  ez : Option ℚ
  deriving DecidableEq

/-- SQL aggregation of one bucket of daily rows in date order:
`MAX(tradeDate)`; the first row's open (`rn_asc = 1`, null if that open is
null); `MAX(high)`/`MIN(low)` over the non-null values; the last row's close
(`rn_desc = 1`); `SUM(volume)` (null when all are null); and the last row's
indicator columns. -/
def aggBucket (g : List Bar) : AggRow :=
  { tradeDate := (g.map Bar.tradeDate).foldr max 0
    openingPrice := g.head?.bind Bar.openingPrice
    high := (g.filterMap Bar.high).max?
    low := (g.filterMap Bar.low).min?
    closingPrice := g.getLast?.bind Bar.closingPrice
    volume := if g.filterMap Bar.volume = [] then none else some (g.filterMap Bar.volume).sum
    sma20 := g.getLast?.bind Bar.sma20
    sma50 := g.getLast?.bind Bar.sma50
    sma200 := g.getLast?.bind Bar.sma200
    ez := g.getLast?.bind Bar.ez }

/-- The symbol/date-range selection both aggregated queries start from,
trade-date ascending. -/
def candleRows (db : List Bar) (sym : String) (lo hi : ℕ) : List Bar :=
  List.insertionSort dateLE
    (db.filter fun r => decide (r.symbol = sym ∧ lo ≤ r.tradeDate ∧ r.tradeDate ≤ hi))

/-- Fixed-count bucketing of the `3D` timeframe: bucket = `row_idx / 3`,
i.e. consecutive groups of three rows (a shorter trailing group kept). -/
def chunk3 : List Bar → List (List Bar)
  | [] => []
  | a :: b :: c :: rest => [a, b, c] :: chunk3 rest
  | [a] => [[a]]
  | [a, b] => [[a, b]]

/-- `fetchCandlestickAggregated` for the `3D` timeframe. -/
def fetchCandlestickAggregated3D (db : List Bar) (sym : String) (lo hi : ℕ) :
    List AggRow :=
  (chunk3 (candleRows db sym lo hi)).map aggBucket

/-- `fetchCandlestickAggregated` for the calendar timeframes (1W/1M/3M):
rows grouped by a calendar truncation `trunc` of the trade date
(`DATE_TRUNC(week|month|quarter, …)`), each group aggregated as above. -/
def fetchCandlestickAggregatedCalendar (trunc : ℕ → ℕ) (db : List Bar)
    (sym : String) (lo hi : ℕ) : List AggRow :=
  (((candleRows db sym lo hi).map fun r => trunc r.tradeDate).dedup).map fun k =>
    aggBucket ((candleRows db sym lo hi).filter fun r => decide (trunc r.tradeDate = k))

/-- The fields of `StockData` an aggregated candle actually carries (the
source sets every other field to the constant null). -/
structure StockData where
  tradeDate : ℕ
  symbol : String
  openingPrice : Option ℚ
  closingPrice : Option ℚ
  high : Option ℚ
  low : Option ℚ
  volume : Option ℚ
  change : Option ℚ
  sma20 : Option ℚ
  sma50 : Option ℚ
  sma200 : Option ℚ
  ez : Option ℚ
  deriving DecidableEq

/-- `aggRowToStockData(row, symbol)`: the intra-bucket percentage change
`((close - open) / open) * 100`, null when the bucket open is null or zero
or its close is null. -/
def aggRowToStockData (row : AggRow) (symbol : String) : StockData :=
  { tradeDate := row.tradeDate
    symbol := symbol
    openingPrice := row.openingPrice
    closingPrice := row.closingPrice
    high := row.high
    low := row.low
    volume := row.volume
    change :=
      match row.openingPrice, row.closingPrice with
      | some o, some c => if o = 0 then none else some ((c - o) / o * 100)
      | _, _ => none
    sma20 := row.sma20
    sma50 := row.sma50
    sma200 := row.sma200
    ez := row.ez }

theorem aggRowToStockData_change (row : AggRow) (sym : String) :
    (aggRowToStockData row sym).change =
      match row.openingPrice, row.closingPrice with
      | some o, some c => if o = 0 then none else some (100 * ((c - o) / o))
      | _, _ => none := by
  unfold aggRowToStockData
  cases row.openingPrice with
  | none => rfl
  | some o =>
    cases row.closingPrice with
    | none => rfl
    | some c =>
      dsimp only
      rw [mul_comm]

theorem chunk3_mem_ne_nil : ∀ (l : List Bar) (g : List Bar), g ∈ chunk3 l → g ≠ [] := by
  intro l
  induction l using chunk3.induct with
  | case1 => intro g hg; cases hg
  | case2 a b c rest ih =>
    intro g hg
    rcases List.mem_cons.mp hg with rfl | hg2
    · simp
    · exact ih g hg2
  | case3 a => intro g hg; rcases List.mem_singleton.mp hg with rfl; simp
  | case4 a b => intro g hg; rcases List.mem_singleton.mp hg with rfl; simp

/-- **C10.** Aggregated-bar change is intra-bucket: for every bar produced
by the fixed-count (`3D`) or calendar (`1W`/`1M`/`3M`) aggregation, the
returned `change` is `100 * (close - open) / open` computed from that
bucket's first row's open and last row's close, and is null whenever the
bucket open is null or zero or the bucket close is null; it is never a
day-over-day change carried from an underlying daily row. -/
theorem fetchCandlestickAggregated_change (db : List Bar) (sym : String) (lo hi : ℕ) :
    (∀ a ∈ fetchCandlestickAggregated3D db sym lo hi,
      ((aggRowToStockData a sym).change =
        match a.openingPrice, a.closingPrice with
        | some o, some c => if o = 0 then none else some (100 * ((c - o) / o))
        | _, _ => none) ∧
      ∃ g, g ≠ [] ∧ a = aggBucket g ∧
        a.openingPrice = g.head?.bind Bar.openingPrice ∧
        a.closingPrice = g.getLast?.bind Bar.closingPrice) ∧
    (∀ (trunc : ℕ → ℕ), ∀ a ∈ fetchCandlestickAggregatedCalendar trunc db sym lo hi,
      ((aggRowToStockData a sym).change =
        match a.openingPrice, a.closingPrice with
        | some o, some c => if o = 0 then none else some (100 * ((c - o) / o))
        | _, _ => none) ∧
      ∃ g, g ≠ [] ∧ a = aggBucket g ∧
        a.openingPrice = g.head?.bind Bar.openingPrice ∧
        a.closingPrice = g.getLast?.bind Bar.closingPrice) := by
  constructor
  · intro a ha
    refine ⟨aggRowToStockData_change a sym, ?_⟩
    rw [fetchCandlestickAggregated3D, List.mem_map] at ha
    obtain ⟨g, hg, rfl⟩ := ha
    exact ⟨g, chunk3_mem_ne_nil _ g hg, rfl, rfl, rfl⟩
  · intro trunc a ha
    refine ⟨aggRowToStockData_change a sym, ?_⟩
    rw [fetchCandlestickAggregatedCalendar, List.mem_map] at ha
    obtain ⟨k, hk, rfl⟩ := ha
    rw [List.mem_dedup, List.mem_map] at hk
    obtain ⟨r, hr, hrk⟩ := hk
    refine ⟨(candleRows db sym lo hi).filter fun r2 => decide (trunc r2.tradeDate = k),
      ?_, rfl, rfl, rfl⟩
    apply List.ne_nil_of_mem
    rw [List.mem_filter]
    exact ⟨hr, by simp [hrk]⟩
